import Mathlib

set_option maxRecDepth 100000

/-!
# Verification of the drug-detective ingestion pipeline

Shallow embedding of the repository's response-repair engine
(`src/json_validator.py`), structure validator, and per-item ingestion
orchestrator (`src/main.py`, `src/pdf_extractor.py`, `src/database_manager.py`),
together with theorems settling the frozen claims about them.

Python values decoded from JSON are modelled by `JVal`; Python's `json.loads`
is modelled by `json_loads`, a strict recursive-descent parser covering the
JSON fragment this program exchanges (objects, arrays, strings with the
single-character escapes, integer numbers, `true`/`false`/`null`).
Floating-point literals and `\uXXXX` escapes are outside the model: on such
inputs `json_loads` fails where CPython would succeed, which only shrinks the
domain of the universally quantified parsing claims and touches no concrete
input used below.
-/

/-- JSON-decoded Python value: `None`, `bool`, `int`, `str`, `list`, `dict`.
`obj` field lists are kept in insertion order, as Python dicts are. -/
inductive JVal where
  | null
  | bool (b : Bool)
  | num (n : Int)
  | str (s : String)
  | arr (elems : List JVal)
  | obj (fields : List (String × JVal))

/-- The four inter-token whitespace characters accepted by `json.loads`. -/
def jsonWs (c : Char) : Bool := c = ' ' || c = '\t' || c = '\n' || c = '\r'

/-- Drop leading JSON whitespace. -/
def skipWs : List Char → List Char
  | [] => []
  | c :: rest => if jsonWs c then skipWs rest else c :: rest

/-- Single-character string escapes of JSON (`\uXXXX` is outside the model). -/
def escChar (e : Char) : Option Char :=
  if e = '"' ∨ e = '\\' ∨ e = '/' then some e
  else if e = 'b' then some (Char.ofNat 8)
  else if e = 'f' then some (Char.ofNat 12)
  else if e = 'n' then some '\n'
  else if e = 'r' then some '\r'
  else if e = 't' then some '\t'
  else none

/-- Parse the body of a JSON string literal (the opening quote already
consumed); returns the decoded characters and the input after the closing
quote.  Literal control characters are rejected, as in strict `json.loads`. -/
def parseStringBody : List Char → Option (List Char × List Char)
  | [] => none
  | '"' :: rest => some ([], rest)
  | '\\' :: rest =>
    match rest with
    | [] => none
    | e :: rest2 =>
      match escChar e with
      | none => none
      | some c =>
        match parseStringBody rest2 with
        | none => none
        | some (s, r) => some (c :: s, r)
  | c :: rest =>
    if c.toNat < 32 then none
    else
      match parseStringBody rest with
      | none => none
      | some (s, r) => some (c :: s, r)

def digitVal (c : Char) : Nat := c.toNat - '0'.toNat

/-- Accumulate a digit run into a number. -/
def digitsAcc : Nat → List Char → Nat
  | acc, [] => acc
  | acc, d :: rest => digitsAcc (acc * 10 + digitVal d) rest

/-- Does the input continue with a fraction or exponent marker?  Such numbers
are floats, outside the model; the parser fails on them. -/
def floatFollows : List Char → Bool
  | c :: _ => c = '.' || c = 'e' || c = 'E'
  | [] => false

/-- Parse the digits of a non-negative JSON integer (leading-zero rule of the
JSON grammar: a number starting with `0` is just `0`). -/
def parseNatPart : List Char → Option (Nat × List Char)
  | '0' :: rest => if floatFollows rest then none else some (0, rest)
  | c :: rest =>
    if c.isDigit then
      let p := List.span Char.isDigit rest
      if floatFollows p.2 then none
      else some (digitsAcc (digitVal c) p.1, p.2)
    else none
  | [] => none

/-- Parse a JSON integer literal with optional minus sign. -/
def parseIntLit : List Char → Option (Int × List Char)
  | '-' :: rest => (parseNatPart rest).map (fun p => (-(p.1 : Int), p.2))
  | l => (parseNatPart l).map (fun p => ((p.1 : Int), p.2))

/-- Assoc-list update with Python-dict semantics: an existing key keeps its
position and gets the new value, a new key is appended. -/
def setKey : List (String × JVal) → String → JVal → List (String × JVal)
  | [], k, v => [(k, v)]
  | (k0, v0) :: rest, k, v =>
    if k0 = k then (k0, v) :: rest else (k0, v0) :: setKey rest k v

/-- Fold a parsed member list into a Python dict (later duplicate key wins). -/
def buildObj (pairs : List (String × JVal)) : List (String × JVal) :=
  pairs.foldl (fun acc kv => setKey acc kv.1 kv.2) []

mutual

/-- Parse one JSON value starting at a non-whitespace position; returns the
value and the remaining input.  Fuel-based so that all recursion is
structural and kernel-reducible. -/
def parseVal : Nat → List Char → Option (JVal × List Char)
  | 0, _ => none
  | fuel + 1, l =>
    match l with
    | 'n' :: 'u' :: 'l' :: 'l' :: rest => some (.null, rest)
    | 't' :: 'r' :: 'u' :: 'e' :: rest => some (.bool true, rest)
    | 'f' :: 'a' :: 'l' :: 's' :: 'e' :: rest => some (.bool false, rest)
    | '"' :: rest =>
      (parseStringBody rest).map (fun p => (.str (String.mk p.1), p.2))
    | '[' :: rest =>
      (match skipWs rest with
       | ']' :: r => some (.arr [], r)
       | l1 => (parseElems fuel l1).map (fun p => (.arr p.1, p.2)))
    | '{' :: rest =>
      (match skipWs rest with
       | '}' :: r => some (.obj [], r)
       | l1 => (parseMembers fuel l1).map (fun p => (.obj (buildObj p.1), p.2)))
    | _ => (parseIntLit l).map (fun p => (.num p.1, p.2))

/-- Parse one or more comma-separated array elements and the closing `]`. -/
def parseElems : Nat → List Char → Option (List JVal × List Char)
  | 0, _ => none
  | fuel + 1, l =>
    match parseVal fuel l with
    | none => none
    | some (v, r) =>
      match skipWs r with
      | ',' :: r2 =>
        (match parseElems fuel (skipWs r2) with
         | none => none
         | some (vs, r3) => some (v :: vs, r3))
      | ']' :: r2 => some ([v], r2)
      | _ => none

/-- Parse one or more `"key": value` members and the closing `}`. -/
def parseMembers : Nat → List Char → Option (List (String × JVal) × List Char)
  | 0, _ => none
  | fuel + 1, l =>
    match l with
    | '"' :: rest =>
      (match parseStringBody rest with
       | none => none
       | some (k, r1) =>
         match skipWs r1 with
         | ':' :: r2 =>
           (match parseVal fuel (skipWs r2) with
            | none => none
            | some (v, r3) =>
              match skipWs r3 with
              | ',' :: r4 =>
                (match parseMembers fuel (skipWs r4) with
                 | none => none
                 | some (fs, r5) => some ((String.mk k, v) :: fs, r5))
              | '\x7d' :: r4 => some ([(String.mk k, v)], r4)
              | _ => none)
         | _ => none)
    | _ => none

end

/-- `json.loads` on a character list: a single value, surrounded only by
whitespace. -/
def loadsChars (l : List Char) : Option JVal :=
  match parseVal (2 * l.length + 2) (skipWs l) with
  | some (v, rest) => if (skipWs rest).isEmpty then some v else none
  | none => none

/-- Model of Python `json.loads` (strict parse used by
`validate_and_clean_json`). -/
def json_loads (s : String) : Option JVal := loadsChars s.data

example : json_loads "\x7b\"foo\": 1\x7d" = some (.obj [("foo", .num 1)]) := by rfl

example : json_loads " [true, null, \"a b\"] " =
    some (.arr [.bool true, .null, .str "a b"]) := by rfl

example : json_loads "\x7b'foo': 1\x7d" = none := by rfl

example : json_loads "" = none := by rfl

example : json_loads "\x7b\"a\": \",\x7d\"\x7d" = some (.obj [("a", .str ",\x7d")]) := by rfl

example : json_loads "01" = none := by rfl

example : json_loads "-45" = some (.num (-45)) := by rfl

/-!
## `clean_json_text` (src/json_validator.py lines 66-95)

The four regex transformations, character-exact:
1. `re.search(r"(\x7b[\s\S]*\x7d)")` — substring from the first `{` to the last `}`
   (kept whole if no such pair);
2. every `'` replaced by `"`;
3. `re.sub(r'([\x7b,])\s*([a-zA-Z0-9_]+)\s*:', r'\1"\2":')` — quote bare keys,
   dropping the surrounding whitespace, scanning left to right and resuming
   after each match;
4. `re.sub(r',\s*([\x7d\]])', r'\1')` — drop trailing commas (and the
   intervening whitespace), resuming after the bracket;
5. `re.sub(r'^[^\x7b]*(\x7b[\s\S]*\x7d)[^\x7d]*$', r'\1')` — which extracts exactly the
   same first-`\x7b`-to-last-`\x7d` span as step 1.
-/

/-- Whitespace class of Python's `re` module (`\s`), ASCII part. -/
def pyWs (c : Char) : Bool :=
  c = ' ' || c = '\t' || c = '\n' || c = '\r' || c = Char.ofNat 12 || c = Char.ofNat 11

def pyWsDrop (l : List Char) : List Char := l.dropWhile pyWs

/-- Word character of the bare-key regex: `[a-zA-Z0-9_]`. -/
def wordChar (c : Char) : Bool := c.isAlpha || c.isDigit || c = '_'

/-- The first-`\x7b`-to-last-`\x7d` span extraction shared by steps 1 and 5 of
`clean_json_text`; the input is returned unchanged when the pattern has no
match. -/
def braceSpan (l : List Char) : List Char :=
  match l.dropWhile (fun c => !(c = '\x7b')) with
  | [] => l
  | s =>
    match (s.reverse.dropWhile (fun c => !(c = '\x7d'))).reverse with
    | [] => l
    | t => t

/-- Step 2 of `clean_json_text`: `json_text.replace("'", '"')`. -/
def unswapQuotes (l : List Char) : List Char :=
  l.map (fun c => if c = '\'' then '"' else c)

/-- Lookahead of the bare-key regex after a `\x7b` or `,`: `\s*([a-zA-Z0-9_]+)\s*:`.
Returns the key and the input just after the colon. -/
def tryKey (l : List Char) : Option (List Char × List Char) :=
  let l1 := pyWsDrop l
  let w := l1.takeWhile wordChar
  let l2 := l1.dropWhile wordChar
  if w.isEmpty then none
  else
    match pyWsDrop l2 with
    | ':' :: r => some (w, r)
    | _ => none

/-- Step 3 of `clean_json_text`: quote bare identifier keys.  Fuel-based; the
fuel is at least the input length at every call. -/
def qbkAux : Nat → List Char → List Char
  | 0, l => l
  | _ + 1, [] => []
  | n + 1, c :: rest =>
    if c = '\x7b' || c = ',' then
      match tryKey rest with
      | some (w, after) => c :: '"' :: (w ++ '"' :: ':' :: qbkAux n after)
      | none => c :: qbkAux n rest
    else c :: qbkAux n rest

def quoteBareKeys (l : List Char) : List Char := qbkAux l.length l

/-- Lookahead of the trailing-comma regex after a `,`: `\s*([\x7d\]])`. -/
def tryCloseBracket (l : List Char) : Option (Char × List Char) :=
  match pyWsDrop l with
  | '\x7d' :: r => some ('\x7d', r)
  | ']' :: r => some (']', r)
  | _ => none

/-- Step 4 of `clean_json_text`: remove trailing commas. -/
def dtcAux : Nat → List Char → List Char
  | 0, l => l
  | _ + 1, [] => []
  | n + 1, c :: rest =>
    if c = ',' then
      match tryCloseBracket rest with
      | some (b, after) => b :: dtcAux n after
      | none => c :: dtcAux n rest
    else c :: dtcAux n rest

def dropTrailingCommas (l : List Char) : List Char := dtcAux l.length l

/-- `clean_json_text` (src/json_validator.py): the five steps in source
order. -/
def clean_json_text (s : String) : String :=
  String.mk (braceSpan (dropTrailingCommas (quoteBareKeys (unswapQuotes (braceSpan s.data)))))

/-!
## Markdown-fence extraction (src/json_validator.py lines 46-59)

`re.findall(r"```(?:json)?\s*([\s\S]*?)```", json_text)`: non-overlapping
matches in order; each match optionally consumes a `json` tag, greedily
consumes whitespace, then captures lazily up to the nearest closing
triple-backtick; scanning resumes after the closing fence.
-/

/-- Strip a literal `json` language tag if present (the regex `(?:json)?`
alternative, tried greedily). -/
def stripJsonTag : List Char → List Char
  | 'j' :: 's' :: 'o' :: 'n' :: rest => rest
  | l => l

/-- Find the nearest closing triple-backtick; returns the captured content
and the input after the closing fence. -/
def findCloseFence : List Char → Option (List Char × List Char)
  | '`' :: '`' :: '`' :: after => some ([], after)
  | c :: rest =>
    match findCloseFence rest with
    | none => none
    | some (content, after) => some (c :: content, after)
  | [] => none

/-- Does a triple-backtick opening fence start here?  Returns the input after
it. -/
def openFence (l : List Char) : Option (List Char) :=
  if l.take 3 = ['`', '`', '`'] then some (l.drop 3) else none

/-- All fenced-block captures, in order (the `re.findall` loop). -/
def fenceAux : Nat → List Char → List (List Char)
  | 0, _ => []
  | _ + 1, [] => []
  | n + 1, c :: rest =>
    match openFence (c :: rest) with
    | some r =>
      (match findCloseFence (pyWsDrop (stripJsonTag r)) with
       | some p => p.1 :: fenceAux n p.2
       | none => [])
    | none => fenceAux n rest

def fenceBlocks (l : List Char) : List (List Char) := fenceAux l.length l

/-- The fence fallback loop: strict-parse each block in order, return the
first success. -/
def firstParsedFence : List (List Char) → Option JVal
  | [] => none
  | c :: rest =>
    match loadsChars c with
    | some v => some v
    | none => firstParsedFence rest

/-!
## `validate_and_clean_json` (src/json_validator.py lines 14-63)

The ordered fallback chain.  `RepairStage` records which branch of the source
produced the return value (each branch is observable in the source through
its distinct log line).
-/

inductive RepairStage where
  | emptyInput
  | direct
  | cleaned
  | fence
  | failed
  deriving DecidableEq

/-- The repair chain with its stage observation.  The first guard is Python's
`if not json_text`, which for a string argument is true exactly for `""`. -/
def repairResult (s : String) : Option JVal × RepairStage :=
  if s.data.isEmpty then (none, .emptyInput)
  else
    match json_loads s with
    | some v => (some v, .direct)
    | none =>
      match json_loads (clean_json_text s) with
      | some v => (some v, .cleaned)
      | none =>
        match firstParsedFence (fenceBlocks s.data) with
        | some v => (some v, .fence)
        | none => (none, .failed)

/-- `validate_and_clean_json`: the value returned to the orchestrator
(`None` is the `RepairFailure` sentinel). -/
def validate_and_clean_json (s : String) : Option JVal := (repairResult s).1

/-- The orchestrator calls `validate_and_clean_json(llm_response)` where
`llm_response` may be Python `None` (inference failure): `if not json_text`
is then true and the sentinel is returned. -/
def repairOpt : Option String → Option JVal
  | none => none
  | some s => validate_and_clean_json s

example : validate_and_clean_json "\x7b\"drugs\": []\x7d" = some (.obj [("drugs", .arr [])]) := by rfl

example : validate_and_clean_json "\x7b'drugs': []\x7d" = some (.obj [("drugs", .arr [])]) := by rfl

example : validate_and_clean_json "Result:\n```json\n\x7b'a': 'x'\x7d\n```" =
    some (.obj [("a", .str "x")]) := by rfl

example : validate_and_clean_json "" = none := by rfl

example : validate_and_clean_json "   " = none := by rfl

example : repairResult "   " = (none, .failed) := by rfl

example : validate_and_clean_json "\x7ba: 1, \"b\": 2,\x7d" =
    some (.obj [("a", .num 1), ("b", .num 2)]) := by rfl

/-!
## `validate_drug_structure` (src/json_validator.py lines 98-151)

Shape check with early returns; `List.all` short-circuits the same way and
returns the same boolean.
-/

/-- Assoc lookup on a parsed object (Python `key in dict` / `dict[key]`;
parsed dicts have distinct keys). -/
def getField : List (String × JVal) → String → Option JVal
  | [], _ => none
  | (k0, v0) :: rest, k => if k0 = k then some v0 else getField rest k

/-- One element of an `attributes` list: a dict with both keys present. -/
def validAttr : JVal → Bool
  | .obj fields => (getField fields "attribute_name").isSome && (getField fields "attribute_value").isSome
  | _ => false

/-- One element of `drugs`: a dict with `drug_name` present and a
list-valued `attributes` whose elements all pass `validAttr`. -/
def validDrug : JVal → Bool
  | .obj fields =>
    (getField fields "drug_name").isSome &&
    (match getField fields "attributes" with
     | some (.arr attrs) => attrs.all validAttr
     | _ => false)
  | _ => false

/-- `validate_drug_structure`: top-level dict with a list-valued `drugs` key
whose elements all pass `validDrug`. -/
def validate_drug_structure : JVal → Bool
  | .obj fields =>
    (match getField fields "drugs" with
     | some (.arr drugs) => drugs.all validDrug
     | _ => false)
  | _ => false

/-!
## Orchestrator embedding (src/main.py, src/pdf_extractor.py,
src/database_manager.py)

External effects are inputs of the run:
* `World.folder` — `os.listdir` of the PDF folder (duplicate-free in any real
  directory; stated as a hypothesis where needed);
* `World.extracted` — `extract_text_from_pdf` per filename (`""` on failure);
* `World.llmResp` — the inference response for the run's `i`-th attempted
  item (`none` models `process_text_with_llm` returning `None`);
* `World.insertFails` — whether the `k`-th relational insert of the `i`-th
  item raises `sqlite3.Error` (`k = 0` is the document insert).  Each insert
  commits independently; a failing insert writes nothing (its rollback undoes
  nothing already committed) and the raised error is caught at the item
  boundary.
-/

structure World where
  folder : List String
  extracted : String → String
  llmResp : Nat → Option String
  insertFails : Nat → Nat → Bool

/-- Persisted ledger file (`./data/processed_pdfs.json`): absent, unreadable
or non-JSON, or a stored list of identifiers (the only shape the program
itself ever writes). -/
inductive LedgerFile where
  | missing
  | corrupt
  | valid (entries : List String)

/-- `load_processed_files`: the stored list; `[]` when the file is absent or
loading raises (the `except` branch). -/
def load_processed_files : LedgerFile → List String
  | .missing => []
  | .corrupt => []
  | .valid l => l

/-- Relational store: the three tables and their autoincrement counters. -/
structure DB where
  abstracts : List (Nat × String × String)
  drugs : List (Nat × JVal × Nat)
  attributes : List (Nat × Nat × JVal × JVal)
  nextAbstractId : Nat
  nextDrugId : Nat
  nextAttrId : Nat

def DB.empty : DB := ⟨[], [], [], 1, 1, 1⟩

/-- Python truthiness of a decoded JSON value (`if not x`). -/
def truthy : JVal → Bool
  | .null => false
  | .bool b => b
  | .num n => n != 0
  | .str s => !s.data.isEmpty
  | .arr l => !l.isEmpty
  | .obj l => !l.isEmpty

/-- sqlite3 can bind str, int and bool parameters; binding a list or dict
raises `sqlite3.InterfaceError` (an `sqlite3.Error`). -/
def bindable : JVal → Bool
  | .str _ => true
  | .num _ => true
  | .bool _ => true
  | _ => false

/-- Python `x.get(k)` on a dict (`null` doubles for Python `None`, exactly as
`json.loads` decodes JSON `null`). -/
def pyGet (fields : List (String × JVal)) (k : String) : JVal :=
  match getField fields k with
  | some v => v
  | none => .null

/-- Python `x.get(k, [])` on a dict. -/
def pyGetList (fields : List (String × JVal)) (k : String) : JVal :=
  match getField fields k with
  | some v => v
  | none => .arr []

/-- Python `for y in x`: lists yield elements, dicts yield their keys,
strings yield one-character strings; other values raise `TypeError`. -/
def toIter : JVal → Option (List JVal)
  | .arr l => some l
  | .obj fields => some (fields.map (fun kv => .str kv.1))
  | .str s => some (s.data.map (fun c => .str (String.mk [c])))
  | _ => none

/-- The attribute loop of main.py (lines 108-112) for one drug.  `k` is the
item's next insert index.  Returns the attribute rows actually inserted, the
next insert index, and whether the loop finished without raising. -/
def attrsLoop (fails : Nat → Bool) : Nat → List JVal → List (JVal × JVal) × Nat × Bool
  | k, [] => ([], k, true)
  | k, a :: rest =>
    match a with
    | .obj fields =>
      let an := pyGet fields "attribute_name"
      let av := pyGet fields "attribute_value"
      if truthy an && truthy av then
        if !(bindable an && bindable av) || fails k then ([], k, false)
        else
          let p := attrsLoop fails (k + 1) rest
          ((an, av) :: p.1, p.2.1, p.2.2)
      else attrsLoop fails k rest
    | _ => ([], k, false)

/-- The drug loop of main.py (lines 99-112).  Returns the drug rows (each
with its inserted attribute rows) actually inserted, the next insert index,
and whether the loop finished without raising. -/
def drugsLoop (fails : Nat → Bool) : Nat → List JVal → List (JVal × List (JVal × JVal)) × Nat × Bool
  | k, [] => ([], k, true)
  | k, d :: rest =>
    match d with
    | .obj fields =>
      let dn := pyGet fields "drug_name"
      if truthy dn then
        if !(bindable dn) || fails k then ([], k, false)
        else
          match toIter (pyGetList fields "attributes") with
          | none => ([(dn, [])], k + 1, false)
          | some attrs =>
            let pa := attrsLoop fails (k + 1) attrs
            if pa.2.2 then
              let pd := drugsLoop fails pa.2.1 rest
              ((dn, pa.1) :: pd.1, pd.2.1, pd.2.2)
            else ([(dn, pa.1)], pa.2.1, false)
      else drugsLoop fails k rest
    | _ => ([], k, false)

/-- Outcome of one iteration of the per-item loop of `main` (lines 81-119):
was the document row inserted, which drug/attribute rows were inserted, and
did the body reach `newly_processed.append` (no `continue`, no exception). -/
structure ItemResult where
  docInserted : Bool
  rows : List (JVal × List (JVal × JVal))
  completed : Bool

/-- `valid_json.get('drugs', [])` then `for drug in ...`: a non-dict truthy
value raises `AttributeError` at `.get` (modelled as `none`), a dict yields
the iteration list of its `drugs` value (or of `[]` when absent). -/
def itemDrugsVal : JVal → Option (List JVal)
  | .obj fields => toIter (pyGetList fields "drugs")
  | _ => none

/-- One iteration of the per-item loop of `main`, lines 81-119: insert the
abstract, call the LLM, repair, the falsy guard (`if not valid_json`), then
the drug loop; any raise is caught by the item's `except` clause. -/
def processItem (fails : Nat → Bool) (resp : Option String) : ItemResult :=
  if fails 0 then ⟨false, [], false⟩
  else
    match repairOpt resp with
    | none => ⟨true, [], false⟩
    | some v =>
      if !truthy v then ⟨true, [], false⟩
      else
        match itemDrugsVal v with
        | none => ⟨true, [], false⟩
        | some ds =>
          let p := drugsLoop fails 1 ds
          ⟨true, p.1, p.2.2⟩

/-- Apply one item's inserted rows to the store (ids from the autoincrement
counters, exactly one abstract row when the document insert succeeded). -/
def applyAttrs (db : DB) (did : Nat) : List (JVal × JVal) → DB
  | [] => db
  | (an, av) :: rest =>
    applyAttrs
      { db with
        attributes := db.attributes ++ [(db.nextAttrId, did, an, av)],
        nextAttrId := db.nextAttrId + 1 } did rest

def applyRows (db : DB) (aid : Nat) : List (JVal × List (JVal × JVal)) → DB
  | [] => db
  | (dn, attrs) :: rest =>
    let did := db.nextDrugId
    let db1 := { db with
      drugs := db.drugs ++ [(did, dn, aid)],
      nextDrugId := did + 1 }
    applyRows (applyAttrs db1 did attrs) aid rest

def applyItem (db : DB) (f x : String) (r : ItemResult) : DB :=
  if r.docInserted then
    let aid := db.nextAbstractId
    let db1 := { db with
      abstracts := db.abstracts ++ [(aid, f, x)],
      nextAbstractId := aid + 1 }
    applyRows db1 aid r.rows
  else db

/-- ASCII lowercasing (`f.lower()`; filenames here are ASCII). -/
def pyLower (c : Char) : Char :=
  if 'A' ≤ c && c ≤ 'Z' then Char.ofNat (c.toNat + 32) else c

/-- `f.lower().endswith('.pdf')`. -/
def isPdfName (f : String) : Bool :=
  (f.data.map pyLower).reverse.take 4 == ['f', 'd', 'p', '.']

/-- Python `f in processed_files` on a list of strings. -/
def strIn (f : String) (l : List String) : Bool := l.any (fun g => g.data == f.data)

/-- `extract_text_from_pdfs(folder, processed)`: `.pdf` files (case-
insensitive suffix) not in the ledger, paired with their extracted text,
dropping empty extractions. -/
def extract_text_from_pdfs (w : World) (processed : List String) : List (String × String) :=
  ((w.folder.filter isPdfName).filter (fun f => !strIn f processed)).filterMap
    (fun f => if (w.extracted f).data.isEmpty then none else some (f, w.extracted f))

/-- The per-item loop of `main` over `pdf_data`, threading the store and
collecting `newly_processed`; `i` numbers the attempted items. -/
def runItems (w : World) : Nat → List (String × String) → DB → DB × List String
  | _, [], db => (db, [])
  | i, (f, x) :: rest, db =>
    let r := processItem (w.insertFails i) (w.llmResp i)
    let db1 := applyItem db f x r
    let p := runItems w (i + 1) rest db1
    (p.1, (if r.completed then [f] else []) ++ p.2)

/-- Observable outcome of one `main()` run. -/
structure RunResult where
  db : DB
  ledgerFile : LedgerFile
  ledgerSaves : Nat
  attempted : List String
  newly : List String

/-- `main()` (src/main.py lines 55-125): load the ledger, build `pdf_data`,
return early if it is empty, otherwise process every item and persist the
extended ledger once. -/
def runPipeline (w : World) (lf : LedgerFile) (db : DB) : RunResult :=
  let processed := load_processed_files lf
  let pdfData := extract_text_from_pdfs w processed
  if pdfData.isEmpty then
    ⟨db, lf, 0, [], []⟩
  else
    let p := runItems w 0 pdfData db
    ⟨p.1, .valid (processed ++ p.2), 1, pdfData.map Prod.fst, p.2⟩

/-- One-document world with the end-to-end response of spec section 8. -/
def demoWorld : World :=
  ⟨["a.pdf"], fun _ => "Mel text",
    fun _ => some "Here is the result:\n```json\n\x7b'drugs': [\x7b'drug_name': 'DrugX', 'attributes': [\x7b'attribute_name':'ORR','attribute_value':'45%'\x7d,]\x7d]\x7d\n```",
    fun _ _ => false⟩

/-- End-to-end scenario of spec section 8: one document, the fenced
single-quoted response; one drug row `DrugX`, one attribute row
`(ORR, 45%)`, identifier recorded. -/
example :
    (runPipeline demoWorld (.valid []) DB.empty).newly = ["a.pdf"] ∧
    (runPipeline demoWorld (.valid []) DB.empty).db.abstracts = [(1, "a.pdf", "Mel text")] ∧
    (runPipeline demoWorld (.valid []) DB.empty).db.drugs = [(1, .str "DrugX", 1)] ∧
    (runPipeline demoWorld (.valid []) DB.empty).db.attributes = [(1, 1, .str "ORR", .str "45%")] ∧
    (runPipeline demoWorld (.valid []) DB.empty).ledgerFile = .valid ["a.pdf"] :=
  ⟨rfl, rfl, rfl, rfl, rfl⟩

/-!
## Claim C5 — direct-parse pass-through
-/

lemma json_loads_empty : json_loads (String.mk []) = none := rfl

/-- C5: any input that parses as strict JSON is returned exactly as its
direct parse, from the first stage of the chain; neither normalization nor
fence extraction contributes. -/
theorem c5_direct_parse_is_passthrough (t : String) (v : JVal)
    (h : json_loads t = some v) :
    validate_and_clean_json t = some v ∧ (repairResult t).2 = RepairStage.direct := by
  have hne : t.data.isEmpty = false := by
    rcases t with ⟨data⟩
    cases data with
    | nil => rw [json_loads_empty] at h; exact Option.noConfusion h
    | cons c cs => rfl
  refine ⟨?_, ?_⟩ <;> simp [validate_and_clean_json, repairResult, hne, h]

/-- Witness for C5 at a concrete strict-JSON input. -/
theorem c5_witness :
    validate_and_clean_json "\x7b\"drugs\": []\x7d" = some (.obj [("drugs", .arr [])]) ∧
    (repairResult "\x7b\"drugs\": []\x7d").2 = RepairStage.direct :=
  c5_direct_parse_is_passthrough _ _ rfl

/-!
## Claim C8 — the structure validator's boolean characterization
-/

/-- Schema conformance as the claim words it: a keyed mapping with a
sequence-valued `drugs`, whose elements are mappings with `drug_name` and a
sequence-valued `attributes`, whose elements are mappings with both
`attribute_name` and `attribute_value`. -/
def SchemaConforming (v : JVal) : Prop :=
  ∃ fields drugs, v = JVal.obj fields ∧
    getField fields "drugs" = some (JVal.arr drugs) ∧
    ∀ d ∈ drugs, ∃ dfs attrs, d = JVal.obj dfs ∧
      (getField dfs "drug_name").isSome = true ∧
      getField dfs "attributes" = some (JVal.arr attrs) ∧
      ∀ a ∈ attrs, ∃ afs, a = JVal.obj afs ∧
        (getField afs "attribute_name").isSome = true ∧
        (getField afs "attribute_value").isSome = true

lemma validAttr_iff (a : JVal) : validAttr a = true ↔
    ∃ afs, a = JVal.obj afs ∧
      (getField afs "attribute_name").isSome = true ∧
      (getField afs "attribute_value").isSome = true := by
  cases a <;> simp [validAttr]

lemma validDrug_iff (d : JVal) : validDrug d = true ↔
    ∃ dfs attrs, d = JVal.obj dfs ∧
      (getField dfs "drug_name").isSome = true ∧
      getField dfs "attributes" = some (JVal.arr attrs) ∧
      ∀ a ∈ attrs, ∃ afs, a = JVal.obj afs ∧
        (getField afs "attribute_name").isSome = true ∧
        (getField afs "attribute_value").isSome = true := by
  cases d with
  | obj dfs =>
    simp only [validDrug, Bool.and_eq_true, JVal.obj.injEq]
    cases hat : getField dfs "attributes" with
    | none => simp [hat]
    | some av =>
      cases av <;>
        simp [hat, List.all_eq_true, validAttr_iff]
  | null => simp [validDrug]
  | bool b => simp [validDrug]
  | num n => simp [validDrug]
  | str s => simp [validDrug]
  | arr l => simp [validDrug]

/-- C8: `validate_drug_structure` returns `true` exactly on schema-conforming
values; in particular an empty `drugs` sequence is accepted, a missing
`drugs` key is rejected, and a drug entry without `attributes` is rejected. -/
theorem c8_validator_characterization :
    (∀ v, validate_drug_structure v = true ↔ SchemaConforming v) ∧
    validate_drug_structure (JVal.obj [("drugs", JVal.arr [])]) = true ∧
    validate_drug_structure (JVal.obj [("other", JVal.num 1)]) = false ∧
    validate_drug_structure
      (JVal.obj [("drugs", JVal.arr [JVal.obj [("drug_name", JVal.str "X")]])]) = false := by
  refine ⟨fun v => ?_, rfl, rfl, rfl⟩
  cases v with
  | obj fields =>
    unfold validate_drug_structure SchemaConforming
    cases hd : getField fields "drugs" with
    | none => simp [hd]
    | some dv =>
      cases dv <;> simp [hd, List.all_eq_true, validDrug_iff]
  | null => simp [validate_drug_structure, SchemaConforming]
  | bool b => simp [validate_drug_structure, SchemaConforming]
  | num n => simp [validate_drug_structure, SchemaConforming]
  | str s => simp [validate_drug_structure, SchemaConforming]
  | arr l => simp [validate_drug_structure, SchemaConforming]

/-!
## Claim C9 — empty and whitespace-only input

Only `""` is caught by the `if not json_text` guard; an all-whitespace input
walks the whole chain, every stage of which fails on it.
-/

lemma pyWs_cases (c : Char) (h : pyWs c = true) :
    c = ' ' ∨ c = '\t' ∨ c = '\n' ∨ c = '\r' ∨ c = Char.ofNat 12 ∨ c = Char.ofNat 11 := by
  simp [pyWs] at h
  tauto

lemma skipWs_all (l : List Char) (p : Char → Bool) (h : ∀ c ∈ l, p c = true) :
    ∀ c ∈ skipWs l, p c = true := by
  induction l with
  | nil => simp [skipWs]
  | cons c rest ih =>
    intro d hd
    rw [skipWs] at hd
    cases hws : jsonWs c with
    | true =>
      rw [if_pos hws] at hd
      exact ih (fun e he => h e (List.mem_cons_of_mem c he)) d hd
    | false =>
      rw [if_neg (by simp [hws])] at hd
      rcases List.mem_cons.mp hd with hd | hd
      · exact hd ▸ h c (List.mem_cons_self c rest)
      · exact h d (List.mem_cons_of_mem c hd)

lemma parseVal_nil (n : Nat) : parseVal n [] = none := by
  cases n <;> rfl

lemma parseVal_wsHead (n : Nat) (c : Char) (l : List Char) (h : pyWs c = true) :
    parseVal n (c :: l) = none := by
  cases n with
  | zero => rfl
  | succ n =>
    rcases pyWs_cases c h with h | h | h | h | h | h <;> subst h <;> rfl

lemma loadsChars_ws_none (l : List Char) (h : ∀ c ∈ l, pyWs c = true) :
    loadsChars l = none := by
  have hs := skipWs_all l pyWs h
  unfold loadsChars
  cases hw : skipWs l with
  | nil => rw [parseVal_nil]
  | cons c r =>
    rw [parseVal_wsHead _ c r (hs c (hw ▸ List.mem_cons_self c r))]

lemma braceSpan_no_lbrace (l : List Char) (h : ∀ c ∈ l, ¬ c = '\x7b') :
    braceSpan l = l := by
  have hd : l.dropWhile (fun c => !(c = '\x7b')) = [] :=
    List.dropWhile_eq_nil_iff.mpr (by simpa using h)
  rw [braceSpan, hd]

lemma map_noop (l : List Char) (f : Char → Char) (h : ∀ c ∈ l, f c = c) :
    l.map f = l := by
  induction l with
  | nil => rfl
  | cons c rest ih =>
    simp only [List.map_cons, h c (List.mem_cons_self c rest),
      ih (fun d hd => h d (List.mem_cons_of_mem c hd))]

lemma qbkAux_pass (n : Nat) (l : List Char)
    (h : ∀ c ∈ l, ¬ c = '\x7b' ∧ ¬ c = ',') : qbkAux n l = l := by
  induction n generalizing l with
  | zero => rfl
  | succ n ih =>
    cases l with
    | nil => rfl
    | cons c rest =>
      have hc := h c (List.mem_cons_self c rest)
      rw [qbkAux]
      simp only [hc.1, hc.2, decide_False, Bool.or_self, Bool.false_eq_true, if_false]
      rw [ih rest (fun d hd => h d (List.mem_cons_of_mem c hd))]

lemma dtcAux_pass (n : Nat) (l : List Char)
    (h : ∀ c ∈ l, ¬ c = ',') : dtcAux n l = l := by
  induction n generalizing l with
  | zero => rfl
  | succ n ih =>
    cases l with
    | nil => rfl
    | cons c rest =>
      have hc := h c (List.mem_cons_self c rest)
      rw [dtcAux]
      simp only [hc, decide_False, Bool.false_eq_true, if_false]
      rw [ih rest (fun d hd => h d (List.mem_cons_of_mem c hd))]

lemma openFence_none (c : Char) (rest : List Char) (hc : ¬ c = '`') :
    openFence (c :: rest) = none := by
  unfold openFence
  rw [if_neg]
  intro h
  rw [List.take_succ_cons] at h
  exact hc (List.cons.inj h).1

lemma fenceAux_no_backtick (n : Nat) (l : List Char)
    (h : ∀ c ∈ l, ¬ c = '`') : fenceAux n l = [] := by
  induction n generalizing l with
  | zero => rfl
  | succ n ih =>
    cases l with
    | nil => rfl
    | cons c rest =>
      have hc := h c (List.mem_cons_self c rest)
      simp only [fenceAux, openFence_none c rest hc]
      exact ih rest (fun d hd => h d (List.mem_cons_of_mem c hd))

lemma pyWs_not_special (c : Char) (h : pyWs c = true) :
    ¬ c = '\x7b' ∧ ¬ c = ',' ∧ ¬ c = '\x27' ∧ ¬ c = '`' := by
  rcases pyWs_cases c h with h | h | h | h | h | h <;> subst h <;> refine ⟨by decide, by decide, by decide, by decide⟩

/-- `clean_json_text` is the identity on all-whitespace input. -/
lemma clean_ws (t : String) (h : ∀ c ∈ t.data, pyWs c = true) :
    clean_json_text t = t := by
  rcases t with ⟨l⟩
  have hb : braceSpan l = l :=
    braceSpan_no_lbrace l (fun c hc => (pyWs_not_special c (h c hc)).1)
  have hu : unswapQuotes l = l := by
    unfold unswapQuotes
    exact map_noop l _ (fun c hc => by
      simp [(pyWs_not_special c (h c hc)).2.2.1])
  have hq : quoteBareKeys l = l :=
    qbkAux_pass l.length l (fun c hc =>
      ⟨(pyWs_not_special c (h c hc)).1, (pyWs_not_special c (h c hc)).2.1⟩)
  have hd : dropTrailingCommas l = l :=
    dtcAux_pass l.length l (fun c hc => (pyWs_not_special c (h c hc)).2.1)
  show String.mk (braceSpan (dropTrailingCommas (quoteBareKeys (unswapQuotes (braceSpan l))))) = String.mk l
  rw [hb, hu, hq, hd, hb]

/-- C9 (amended): the `if not json_text` guard rejects exactly the empty
string as its first step; a whitespace-only non-empty input is not caught by
the guard, but every stage of the chain fails on it, so it too yields the
`RepairFailure` sentinel. -/
theorem c9_amended_whitespace_repair_failure :
    repairResult "" = (none, RepairStage.emptyInput) ∧
    ∀ t : String, (∀ c ∈ t.data, pyWs c = true) →
      validate_and_clean_json t = none := by
  refine ⟨rfl, fun t h => ?_⟩
  have h1 : json_loads t = none := loadsChars_ws_none t.data h
  have h2 : json_loads (clean_json_text t) = none := by rw [clean_ws t h]; exact h1
  have h3 : fenceBlocks t.data = [] :=
    fenceAux_no_backtick t.data.length t.data
      (fun c hc => (pyWs_not_special c (h c hc)).2.2.2)
  unfold validate_and_clean_json repairResult
  cases he : t.data.isEmpty with
  | true => simp [he]
  | false => simp [he, h1, h2, h3, firstParsedFence]

/-- Witness for C9 (amended) at `""` and `"   "`. -/
theorem c9_amended_witness :
    repairResult "" = (none, RepairStage.emptyInput) ∧
    validate_and_clean_json "   " = none :=
  ⟨c9_amended_whitespace_repair_failure.1,
   c9_amended_whitespace_repair_failure.2 "   " (by decide)⟩

/-- C9 counterexample: on `"   "` the chain does not stop at the empty-input
guard — it runs to exhaustion (every stage fails), returning the sentinel
from the final fallthrough instead of the guard. -/
theorem c9_counterexample_whitespace_not_guarded :
    (repairResult "   ").1 = none ∧
    (repairResult "   ").2 = RepairStage.failed ∧
    RepairStage.failed ≠ RepairStage.emptyInput :=
  ⟨rfl, rfl, by decide⟩

/-!
## Claim C7 — fenced input

Counterexample: fenced content `{"a": ",}"}` parses strictly, but the
normalization stage (which runs first) deletes the `,` inside the string
literal and produces a different parsable text, so repair returns a value
different from the strict parse of the fenced content, and the fence stage
never runs.
-/

/-- C7 counterexample: for a fenced valid JSON object, repair can return a
value different from the strict parse of the fenced content. -/
theorem c7_counterexample_normalization_precedes_fences :
    json_loads "\x7b\"a\": \",\x7d\"\x7d" = some (.obj [("a", .str ",\x7d")]) ∧
    fenceBlocks ("```json\n\x7b\"a\": \",\x7d\"\x7d\n```").data =
      [("\x7b\"a\": \",\x7d\"\x7d\n").data] ∧
    validate_and_clean_json "```json\n\x7b\"a\": \",\x7d\"\x7d\n```" =
      some (.obj [("a", .str "\x7d")]) ∧
    (repairResult "```json\n\x7b\"a\": \",\x7d\"\x7d\n```").2 = RepairStage.cleaned ∧
    JVal.str ",\x7d" ≠ JVal.str "\x7d" :=
  ⟨rfl, rfl, rfl, rfl, by intro h; injection h with h2; exact absurd h2 (by decide)⟩

/-!
## Claim C1 — structural validation is never invoked by the orchestrator

`main` imports only `validate_and_clean_json`; `validate_drug_structure` is
defined in src/json_validator.py but never called.  An item whose response
parses to a truthy value failing structural validation is not aborted: it is
processed (finding no `drugs` entries) and recorded in the ledger.
-/

def c1World : World :=
  ⟨["a.pdf"], fun _ => "doc text", fun _ => some "\x7b\"foo\": 1\x7d", fun _ _ => false⟩

/-- C1 failing input: the response parses to `{"foo": 1}`, which fails
`validate_drug_structure`; yet the orchestrator records the item in the
ledger (with no drug rows), instead of aborting it. -/
theorem c1_invalid_structure_item_still_recorded :
    validate_and_clean_json "\x7b\"foo\": 1\x7d" = some (.obj [("foo", .num 1)]) ∧
    validate_drug_structure (.obj [("foo", .num 1)]) = false ∧
    (runPipeline c1World (.valid []) DB.empty).newly = ["a.pdf"] ∧
    (runPipeline c1World (.valid []) DB.empty).ledgerFile = .valid ["a.pdf"] ∧
    (runPipeline c1World (.valid []) DB.empty).db.drugs = [] ∧
    (runPipeline c1World (.valid []) DB.empty).db.abstracts = [(1, "a.pdf", "doc text")] :=
  ⟨rfl, rfl, rfl, rfl, rfl, rfl⟩

/-!
## Claim C2 counterexample — a run with no new items never writes the ledger

`main` returns at `if not pdf_data` before `save_processed_files`, so such a
run persists the ledger zero times, not once.
-/

def c2World : World := ⟨[], fun _ => "", fun _ => none, fun _ _ => false⟩

/-- C2 counterexample: an orchestration run that attempts no items returns
early and performs zero ledger writes, contradicting "the ledger is
persisted once" after every run. -/
theorem c2_counterexample_empty_run_never_saves :
    (runPipeline c2World (.valid ["old.pdf"]) DB.empty).attempted = [] ∧
    (runPipeline c2World (.valid ["old.pdf"]) DB.empty).ledgerSaves = 0 ∧
    (0 : Nat) ≠ 1 :=
  ⟨rfl, rfl, by decide⟩

/-!
## Claim C3 counterexample — failed items are retried and re-ingested

An item whose repair fails is not recorded in the ledger; a second run with
no new source items re-attempts it and inserts a second SourceDocument row.
-/

def c3World : World :=
  ⟨["a.pdf"], fun _ => "doc text", fun _ => some "garbage", fun _ _ => false⟩

/-- C3 counterexample: after a first run whose single item fails repair, a
second run with the same sources processes that item again and the
documents row count grows from 1 to 2. -/
theorem c3_counterexample_failed_item_reprocessed :
    (runPipeline c3World (.valid []) DB.empty).db.abstracts.length = 1 ∧
    (runPipeline c3World (.valid []) DB.empty).newly = [] ∧
    (runPipeline c3World
        (runPipeline c3World (.valid []) DB.empty).ledgerFile
        (runPipeline c3World (.valid []) DB.empty).db).attempted = ["a.pdf"] ∧
    (runPipeline c3World
        (runPipeline c3World (.valid []) DB.empty).ledgerFile
        (runPipeline c3World (.valid []) DB.empty).db).db.abstracts.length = 2 :=
  ⟨rfl, rfl, rfl, rfl⟩

/-!
## Orchestrator characterization lemmas

Spec-side notions, written from the claims' words, to compare with the run:
the Drug/Attribute insert plan derivable from a parsed response (the entries
passing the non-emptiness check), and full per-item success.
-/

/-- The attribute entries of one drug passing the non-emptiness check, in
order; `none` when enumerating them raises (a non-mapping entry). -/
def planAttrs : List JVal → Option (List (JVal × JVal))
  | [] => some []
  | a :: rest =>
    match a with
    | .obj fields =>
      let an := pyGet fields "attribute_name"
      let av := pyGet fields "attribute_value"
      if truthy an && truthy av then
        (planAttrs rest).map (fun l => (an, av) :: l)
      else planAttrs rest
    | _ => none

/-- The drug entries passing the non-emptiness check, each with its
attribute entries; `none` when enumerating them raises. -/
def planDrugs : List JVal → Option (List (JVal × List (JVal × JVal)))
  | [] => some []
  | d :: rest =>
    match d with
    | .obj fields =>
      let dn := pyGet fields "drug_name"
      if truthy dn then
        match toIter (pyGetList fields "attributes") with
        | none => none
        | some attrs =>
          match planAttrs attrs with
          | none => none
          | some pa => (planDrugs rest).map (fun l => (dn, pa) :: l)
      else planDrugs rest
    | _ => none

/-- Number of relational inserts a derivable row plan performs. -/
def rowInserts : List (JVal × List (JVal × JVal)) → Nat
  | [] => 0
  | r :: rest => 1 + r.2.length + rowInserts rest

def attrsBindable (pa : List (JVal × JVal)) : Bool :=
  pa.all (fun a => bindable a.1 && bindable a.2)

def rowsBindable (rows : List (JVal × List (JVal × JVal))) : Bool :=
  rows.all (fun r => bindable r.1 && attrsBindable r.2)

/-- Full per-item success, from the claim's words: the document insert
succeeded, the response was repaired into a truthy mapping, the derivable
Drug/Attribute rows could be enumerated, and every one of their inserts
succeeded (bindable values, no storage error). -/
def FullySuccessful (fails : Nat → Bool) (resp : Option String) : Prop :=
  fails 0 = false ∧
  ∃ fields rows,
    repairOpt resp = some (JVal.obj fields) ∧
    truthy (JVal.obj fields) = true ∧
    (∃ ds, toIter (pyGetList fields "drugs") = some ds ∧ planDrugs ds = some rows) ∧
    rowsBindable rows = true ∧
    ∀ j, 1 ≤ j → j < 1 + rowInserts rows → fails j = false

/-- The names the run's loop appends to `newly_processed`, item by item. -/
def newlyNames (w : World) : Nat → List (String × String) → List String
  | _, [] => []
  | i, (f, _) :: rest =>
    (if (processItem (w.insertFails i) (w.llmResp i)).completed then [f] else []) ++
      newlyNames w (i + 1) rest

/-- Rows of the documents table carrying a given filename. -/
def docCount (db : DB) (f : String) : Nat :=
  (db.abstracts.filter (fun row => row.2.1 = f)).length

/-- Document rows the loop adds for a given filename (one per attempted item
of that name whose document insert does not fail). -/
def docAdds (w : World) : Nat → List (String × String) → String → Nat
  | _, [], _ => 0
  | i, (g, _) :: rest, f =>
    (if g = f ∧ w.insertFails i 0 = false then 1 else 0) + docAdds w (i + 1) rest f

lemma processItem_docInserted (fails : Nat → Bool) (resp : Option String) :
    (processItem fails resp).docInserted = !(fails 0) := by
  unfold processItem
  cases hf : fails 0 with
  | true => rfl
  | false =>
    cases repairOpt resp with
    | none => rfl
    | some v =>
      cases htr : (!truthy v) with
      | true => simp [htr]
      | false =>
        simp only [htr, Bool.false_eq_true, if_false]
        cases itemDrugsVal v <;> rfl

lemma applyAttrs_abstracts (db : DB) (did : Nat) (l : List (JVal × JVal)) :
    (applyAttrs db did l).abstracts = db.abstracts := by
  induction l generalizing db with
  | nil => rfl
  | cons a rest ih => rw [applyAttrs, ih]

lemma applyRows_abstracts (db : DB) (aid : Nat) (rows : List (JVal × List (JVal × JVal))) :
    (applyRows db aid rows).abstracts = db.abstracts := by
  induction rows generalizing db with
  | nil => rfl
  | cons r rest ih => rw [applyRows, ih, applyAttrs_abstracts]

lemma applyItem_docCount (db : DB) (f x : String) (r : ItemResult) (g : String) :
    docCount (applyItem db f x r) g =
      docCount db g + (if r.docInserted = true ∧ f = g then 1 else 0) := by
  unfold applyItem docCount
  cases hdoc : r.docInserted with
  | false => simp
  | true =>
    by_cases hfg : f = g <;>
      simp [applyRows_abstracts, List.filter_append, hfg]

lemma runItems_newly (w : World) (items : List (String × String)) :
    ∀ (i : Nat) (db : DB), (runItems w i items db).2 = newlyNames w i items := by
  induction items with
  | nil => intro i db; rfl
  | cons fx rest ih =>
    intro i db
    rcases fx with ⟨f, x⟩
    rw [runItems, newlyNames, ih]

lemma runItems_docCount (w : World) (items : List (String × String)) :
    ∀ (i : Nat) (db : DB) (f : String),
      docCount (runItems w i items db).1 f = docCount db f + docAdds w i items f := by
  induction items with
  | nil => intro i db f; rfl
  | cons fx rest ih =>
    intro i db f
    rcases fx with ⟨g, x⟩
    rw [runItems, docAdds]
    have hdoc := processItem_docInserted (w.insertFails i) (w.llmResp i)
    rw [ih, applyItem_docCount, hdoc]
    cases hf : w.insertFails i 0 with
    | true => simp [hf]
    | false =>
      by_cases hfg : g = f
      · simp [hfg]
        omega
      · simp [hfg]

lemma newlyNames_subset (w : World) (items : List (String × String)) :
    ∀ (i : Nat) (f : String), f ∈ newlyNames w i items → f ∈ items.map Prod.fst := by
  induction items with
  | nil => intro i f h; exact absurd h (by simp [newlyNames])
  | cons fx rest ih =>
    intro i f h
    rcases fx with ⟨g, x⟩
    rw [newlyNames] at h
    rcases List.mem_append.mp h with h | h
    · rcases Decidable.em ((processItem (w.insertFails i) (w.llmResp i)).completed = true) with hc | hc
      · simp only [if_pos hc, List.mem_singleton] at h
        simp [h]
      · simp only [if_neg hc] at h
        exact absurd h (List.not_mem_nil f)
    · exact List.mem_cons_of_mem g (ih (i + 1) f h)

lemma planAttrs_cons_not_obj (a : JVal) (rest : List JVal)
    (h : ∀ fields, a ≠ JVal.obj fields) : planAttrs (a :: rest) = none := by
  cases a with
  | obj fields => exact absurd rfl (h fields)
  | null => rfl
  | bool b => rfl
  | num n => rfl
  | str s => rfl
  | arr l => rfl

lemma attrsLoop_cons_not_obj (fails : Nat → Bool) (k : Nat) (a : JVal) (rest : List JVal)
    (h : ∀ fields, a ≠ JVal.obj fields) :
    attrsLoop fails k (a :: rest) = ([], k, false) := by
  cases a with
  | obj fields => exact absurd rfl (h fields)
  | null => rfl
  | bool b => rfl
  | num n => rfl
  | str s => rfl
  | arr l => rfl

lemma attrsLoop_plan_none (fails : Nat → Bool) :
    ∀ (attrs : List JVal) (k : Nat), planAttrs attrs = none →
      (attrsLoop fails k attrs).2.2 = false := by
  intro attrs
  induction attrs with
  | nil => intro k h; exact absurd h (by simp [planAttrs])
  | cons a rest ih =>
    intro k h
    cases a with
    | obj fields =>
      rw [planAttrs] at h
      rw [attrsLoop]
      cases htr : (truthy (pyGet fields "attribute_name") &&
          truthy (pyGet fields "attribute_value")) with
      | false =>
        simp only [htr, Bool.false_eq_true, if_false] at h ⊢
        exact ih k h
      | true =>
        simp only [htr, eq_self_iff_true, if_true] at h ⊢
        have h' : planAttrs rest = none := by
          cases hpr : planAttrs rest with
          | none => rfl
          | some pa => rw [hpr] at h; exact absurd h (by simp)
        cases hcond : (!(bindable (pyGet fields "attribute_name") &&
            bindable (pyGet fields "attribute_value")) || fails k) with
        | true => simp only [hcond, eq_self_iff_true, if_true]
        | false =>
          simp only [hcond, Bool.false_eq_true, if_false]
          exact ih (k + 1) h'
    | null => rfl
    | bool b => rfl
    | num n => rfl
    | str s => rfl
    | arr l => rfl

lemma attrsLoop_ok_iff (fails : Nat → Bool) :
    ∀ (attrs : List JVal) (k : Nat) (pa : List (JVal × JVal)), planAttrs attrs = some pa →
      ((attrsLoop fails k attrs).2.2 = true ↔
        (attrsBindable pa = true ∧ ∀ j, k ≤ j → j < k + pa.length → fails j = false)) := by
  intro attrs
  induction attrs with
  | nil =>
    intro k pa h
    rw [planAttrs] at h
    injection h with h
    subst h
    rw [attrsLoop]
    constructor
    · intro _
      exact ⟨rfl, fun j h1 h2 => absurd h2 (by simp only [List.length_nil, Nat.add_zero]; omega)⟩
    · intro _; rfl
  | cons a rest ih =>
    intro k pa h
    cases a with
    | obj fields =>
      rw [planAttrs] at h
      rw [attrsLoop]
      cases htr : (truthy (pyGet fields "attribute_name") &&
          truthy (pyGet fields "attribute_value")) with
      | false =>
        simp only [htr, Bool.false_eq_true, if_false] at h ⊢
        exact ih k pa h
      | true =>
        simp only [htr, eq_self_iff_true, if_true] at h ⊢
        cases hpr : planAttrs rest with
        | none => rw [hpr] at h; exact absurd h (by simp)
        | some pa' =>
          rw [hpr] at h
          simp only [Option.map_some'] at h
          injection h with h
          subst h
          cases hb : (bindable (pyGet fields "attribute_name") &&
              bindable (pyGet fields "attribute_value")) with
          | false =>
            simp only [hb, Bool.not_false, Bool.true_or, eq_self_iff_true, if_true]
            constructor
            · intro hcontra; exact absurd hcontra (by simp)
            · intro hrhs
              have hbind := hrhs.1
              rw [attrsBindable] at hbind
              simp only [List.all_cons, hb, Bool.false_and] at hbind
              exact absurd hbind (by simp)
          | true =>
            cases hfk : fails k with
            | true =>
              simp only [hb, Bool.not_true, Bool.false_or, hfk, eq_self_iff_true, if_true]
              constructor
              · intro hcontra; exact absurd hcontra (by simp)
              · intro hrhs
                have := hrhs.2 k (Nat.le_refl k)
                  (by simp only [List.length_cons]; omega)
                rw [hfk] at this
                exact absurd this (by simp)
            | false =>
              simp only [hb, Bool.not_true, Bool.false_or, hfk, Bool.false_eq_true, if_false]
              have ihr := ih (k + 1) pa' hpr
              constructor
              · intro hok
                obtain ⟨hbind', hall'⟩ := ihr.mp hok
                refine ⟨?_, fun j h1 h2 => ?_⟩
                · rw [attrsBindable]
                  simp only [List.all_cons, hb, Bool.true_and]
                  exact hbind'
                · rcases Nat.eq_or_lt_of_le h1 with h1 | h1
                  · rw [← h1]; exact hfk
                  · exact hall' j h1 (by simp only [List.length_cons] at h2; omega)
              · intro hrhs
                apply ihr.mpr
                refine ⟨?_, fun j h1 h2 =>
                  hrhs.2 j (by omega) (by simp only [List.length_cons]; omega)⟩
                have hbind := hrhs.1
                rw [attrsBindable] at hbind
                simp only [List.all_cons, hb, Bool.true_and] at hbind
                exact hbind
    | null => exact absurd h (by simp [planAttrs])
    | bool b => exact absurd h (by simp [planAttrs])
    | num n => exact absurd h (by simp [planAttrs])
    | str s => exact absurd h (by simp [planAttrs])
    | arr l => exact absurd h (by simp [planAttrs])

lemma attrsLoop_ok_counter (fails : Nat → Bool) :
    ∀ (attrs : List JVal) (k : Nat) (pa : List (JVal × JVal)), planAttrs attrs = some pa →
      (attrsLoop fails k attrs).2.2 = true →
      (attrsLoop fails k attrs).2.1 = k + pa.length := by
  intro attrs
  induction attrs with
  | nil =>
    intro k pa h _
    rw [planAttrs] at h
    injection h with h
    subst h
    rw [attrsLoop]
    simp
  | cons a rest ih =>
    intro k pa h hok
    cases a with
    | obj fields =>
      rw [planAttrs] at h
      rw [attrsLoop] at hok ⊢
      cases htr : (truthy (pyGet fields "attribute_name") &&
          truthy (pyGet fields "attribute_value")) with
      | false =>
        simp only [htr, Bool.false_eq_true, if_false] at h hok ⊢
        exact ih k pa h hok
      | true =>
        simp only [htr, eq_self_iff_true, if_true] at h hok ⊢
        cases hpr : planAttrs rest with
        | none => rw [hpr] at h; exact absurd h (by simp)
        | some pa' =>
          rw [hpr] at h
          simp only [Option.map_some'] at h
          injection h with h
          subst h
          cases hcond : (!(bindable (pyGet fields "attribute_name") &&
              bindable (pyGet fields "attribute_value")) || fails k) with
          | true =>
            simp only [hcond, eq_self_iff_true, if_true] at hok
            exact absurd hok (by simp)
          | false =>
            simp only [hcond, Bool.false_eq_true, if_false] at hok ⊢
            rw [ih (k + 1) pa' hpr hok]
            simp only [List.length_cons]
            omega
    | null => exact Bool.noConfusion (show false = true from hok)
    | bool b => exact Bool.noConfusion (show false = true from hok)
    | num n => exact Bool.noConfusion (show false = true from hok)
    | str s => exact Bool.noConfusion (show false = true from hok)
    | arr l => exact Bool.noConfusion (show false = true from hok)

lemma drugsLoop_plan_none (fails : Nat → Bool) :
    ∀ (ds : List JVal) (k : Nat), planDrugs ds = none →
      (drugsLoop fails k ds).2.2 = false := by
  intro ds
  induction ds with
  | nil => intro k h; exact absurd h (by simp [planDrugs])
  | cons d rest ih =>
    intro k h
    cases d with
    | obj fields =>
      rw [planDrugs] at h
      rw [drugsLoop]
      cases htr : truthy (pyGet fields "drug_name") with
      | false =>
        simp only [htr, Bool.false_eq_true, if_false] at h ⊢
        exact ih k h
      | true =>
        simp only [htr, eq_self_iff_true, if_true] at h ⊢
        cases hcond : (!(bindable (pyGet fields "drug_name")) || fails k) with
        | true => simp only [hcond, eq_self_iff_true, if_true]
        | false =>
          simp only [hcond, Bool.false_eq_true, if_false]
          cases hti : toIter (pyGetList fields "attributes") with
          | none => simp only [hti]
          | some attrs =>
            rw [hti] at h
            have h2 : (match planAttrs attrs with
                | none => (none : Option (List (JVal × List (JVal × JVal))))
                | some pa => Option.map
                    (fun l => (pyGet fields "drug_name", pa) :: l) (planDrugs rest)) = none := h
            simp only [hti]
            cases hpa : planAttrs attrs with
            | none =>
              have hpaok := attrsLoop_plan_none fails attrs (k + 1) hpa
              simp only [hpaok, Bool.false_eq_true, if_false]
            | some pa =>
              rw [hpa] at h2
              have h' : planDrugs rest = none := by
                cases hpr : planDrugs rest with
                | none => rfl
                | some rows' => rw [hpr] at h2; exact absurd h2 (by simp)
              cases hpaok : (attrsLoop fails (k + 1) attrs).2.2 with
              | false => simp only [hpaok, Bool.false_eq_true, if_false]
              | true =>
                simp only [hpaok, eq_self_iff_true, if_true]
                exact ih _ h'
    | null => rfl
    | bool b => rfl
    | num n => rfl
    | str s => rfl
    | arr l => rfl

lemma drugsLoop_ok_iff (fails : Nat → Bool) :
    ∀ (ds : List JVal) (k : Nat) (rows : List (JVal × List (JVal × JVal))),
      planDrugs ds = some rows →
      ((drugsLoop fails k ds).2.2 = true ↔
        (rowsBindable rows = true ∧
         ∀ j, k ≤ j → j < k + rowInserts rows → fails j = false)) := by
  intro ds
  induction ds with
  | nil =>
    intro k rows h
    rw [planDrugs] at h
    injection h with h
    subst h
    rw [drugsLoop]
    constructor
    · intro _
      exact ⟨rfl, fun j h1 h2 => absurd h2 (by rw [rowInserts] at *; omega)⟩
    · intro _; rfl
  | cons d rest ih =>
    intro k rows h
    cases d with
    | obj fields =>
      rw [planDrugs] at h
      rw [drugsLoop]
      cases htr : truthy (pyGet fields "drug_name") with
      | false =>
        simp only [htr, Bool.false_eq_true, if_false] at h ⊢
        exact ih k rows h
      | true =>
        simp only [htr, eq_self_iff_true, if_true] at h ⊢
        cases hti : toIter (pyGetList fields "attributes") with
        | none =>
          rw [hti] at h
          exact absurd
            (show (none : Option (List (JVal × List (JVal × JVal)))) = some rows from h)
            (by simp)
        | some attrs =>
          rw [hti] at h
          have h2 : (match planAttrs attrs with
              | none => (none : Option (List (JVal × List (JVal × JVal))))
              | some pa => Option.map
                  (fun l => (pyGet fields "drug_name", pa) :: l) (planDrugs rest)) =
              some rows := h
          simp only [hti]
          cases hpa : planAttrs attrs with
          | none => rw [hpa] at h2; exact absurd h2 (by simp)
          | some pa =>
            rw [hpa] at h2
            cases hpr : planDrugs rest with
            | none => rw [hpr] at h2; exact absurd h2 (by simp)
            | some rows' =>
              rw [hpr] at h2
              simp only [Option.map_some'] at h2
              injection h2 with h2
              subst h2
              have hri : rowInserts ((pyGet fields "drug_name", pa) :: rows') =
                  1 + pa.length + rowInserts rows' := by rw [rowInserts]
              have hrb : rowsBindable ((pyGet fields "drug_name", pa) :: rows') =
                  ((bindable (pyGet fields "drug_name") && attrsBindable pa) &&
                    rowsBindable rows') := by
                rw [rowsBindable, List.all_cons]; rfl
              cases hbn : bindable (pyGet fields "drug_name") with
              | false =>
                simp only [hbn, Bool.not_false, Bool.true_or, eq_self_iff_true, if_true]
                constructor
                · intro hcontra; exact absurd hcontra (by simp)
                · intro hrhs
                  have := hrhs.1
                  rw [hrb, hbn] at this
                  simp only [Bool.false_and] at this
                  exact absurd this (by simp)
              | true =>
                cases hfk : fails k with
                | true =>
                  simp only [hbn, Bool.not_true, Bool.false_or, hfk, eq_self_iff_true, if_true]
                  constructor
                  · intro hcontra; exact absurd hcontra (by simp)
                  · intro hrhs
                    have := hrhs.2 k (Nat.le_refl k) (by rw [hri]; omega)
                    rw [hfk] at this
                    exact absurd this (by simp)
                | false =>
                  simp only [hbn, Bool.not_true, Bool.false_or, hfk, Bool.false_eq_true, if_false]
                  have hattrs := attrsLoop_ok_iff fails attrs (k + 1) pa hpa
                  cases hpaok : (attrsLoop fails (k + 1) attrs).2.2 with
                  | false =>
                    simp only [hpaok, Bool.false_eq_true, if_false]
                    constructor
                    · intro hcontra; exact absurd hcontra (by simp)
                    · intro hrhs
                      have hbind := hrhs.1
                      rw [hrb] at hbind
                      simp only [Bool.and_eq_true] at hbind
                      have hok2 : (attrsLoop fails (k + 1) attrs).2.2 = true :=
                        hattrs.mpr ⟨hbind.1.2, fun j h1 h2 =>
                          hrhs.2 j (by omega) (by rw [hri]; omega)⟩
                      rw [hpaok] at hok2
                      exact absurd hok2 (by simp)
                  | true =>
                    simp only [hpaok, eq_self_iff_true, if_true]
                    have hcount := attrsLoop_ok_counter fails attrs (k + 1) pa hpa hpaok
                    rw [hcount]
                    obtain ⟨hpab, hparange⟩ := hattrs.mp hpaok
                    have ihr := ih (k + 1 + pa.length) rows' hpr
                    constructor
                    · intro hok
                      obtain ⟨hbind', hall'⟩ := ihr.mp hok
                      refine ⟨?_, fun j h1 h2 => ?_⟩
                      · rw [hrb, hbn, hpab, hbind']
                        rfl
                      · rcases Nat.eq_or_lt_of_le h1 with h1 | h1
                        · rw [← h1]; exact hfk
                        · by_cases hj : j < k + 1 + pa.length
                          · exact hparange j (by omega) (by omega)
                          · exact hall' j (by omega) (by rw [hri] at h2; omega)
                    · intro hrhs
                      apply ihr.mpr
                      refine ⟨?_, fun j h1 h2 => hrhs.2 j (by omega) (by rw [hri]; omega)⟩
                      have hbind := hrhs.1
                      rw [hrb] at hbind
                      simp only [Bool.and_eq_true] at hbind
                      exact hbind.2
    | null => exact absurd h (by simp [planDrugs])
    | bool b => exact absurd h (by simp [planDrugs])
    | num n => exact absurd h (by simp [planDrugs])
    | str s => exact absurd h (by simp [planDrugs])
    | arr l => exact absurd h (by simp [planDrugs])

lemma processItem_completed_iff (fails : Nat → Bool) (resp : Option String) :
    (processItem fails resp).completed = true ↔ FullySuccessful fails resp := by
  unfold processItem FullySuccessful
  cases hf : fails 0 with
  | true =>
    simp only [eq_self_iff_true, if_true]
    constructor
    · intro hcontra; exact absurd hcontra (by simp)
    · intro hrhs; exact absurd hrhs.1 (by simp)
  | false =>
    simp only [Bool.false_eq_true, if_false]
    cases hrep : repairOpt resp with
    | none =>
      constructor
      · intro hcontra; exact absurd hcontra (by simp)
      · intro hrhs
        obtain ⟨-, fields, rows, hsome, -⟩ := hrhs
        exact absurd hsome (by simp)
    | some v =>
      cases hntr : (!truthy v) with
      | true =>
        simp only [hntr, eq_self_iff_true, if_true]
        constructor
        · intro hcontra; exact absurd hcontra (by simp)
        · intro hrhs
          obtain ⟨-, fields, rows, hsome, htr, -⟩ := hrhs
          injection hsome with hsome
          subst hsome
          rw [htr] at hntr
          exact absurd hntr (by simp)
      | false =>
        simp only [hntr, Bool.false_eq_true, if_false]
        cases hdv : itemDrugsVal v with
        | none =>
          constructor
          · intro hcontra; exact absurd hcontra (by simp)
          · intro hrhs
            obtain ⟨-, fields, rows, hsome, -, ⟨ds, hds, hplan⟩, -⟩ := hrhs
            injection hsome with hsome
            subst hsome
            have hdv2 : toIter (pyGetList fields "drugs") = none := hdv
            rw [hds] at hdv2
            exact absurd hdv2 (by simp)
        | some ds0 =>
          simp only [hdv]
          constructor
          · intro hok
            have hok2 : (drugsLoop fails 1 ds0).2.2 = true := hok
            cases v with
            | obj fields =>
              have hds : toIter (pyGetList fields "drugs") = some ds0 := hdv
              cases hplan : planDrugs ds0 with
              | none =>
                have := drugsLoop_plan_none fails ds0 1 hplan
                rw [this] at hok2
                exact absurd hok2 (by simp)
              | some rows =>
                obtain ⟨hbind, hall⟩ := (drugsLoop_ok_iff fails ds0 1 rows hplan).mp hok2
                have htr : truthy (JVal.obj fields) = true := by
                  revert hntr
                  cases truthy (JVal.obj fields) <;> simp
                exact ⟨by trivial, fields, rows, rfl, htr, ⟨ds0, hds, hplan⟩, hbind, hall⟩
            | null => exact Option.noConfusion (show (none : Option (List JVal)) = some ds0 from hdv)
            | bool b => exact Option.noConfusion (show (none : Option (List JVal)) = some ds0 from hdv)
            | num n => exact Option.noConfusion (show (none : Option (List JVal)) = some ds0 from hdv)
            | str s => exact Option.noConfusion (show (none : Option (List JVal)) = some ds0 from hdv)
            | arr l => exact Option.noConfusion (show (none : Option (List JVal)) = some ds0 from hdv)
          · intro hrhs
            obtain ⟨-, fields, rows, hsome, htr, ⟨ds, hds, hplan⟩, hbind, hall⟩ := hrhs
            injection hsome with hsome
            subst hsome
            have hdv2 : toIter (pyGetList fields "drugs") = some ds0 := hdv
            rw [hds] at hdv2
            injection hdv2 with hdv2
            show (drugsLoop fails 1 ds0).2.2 = true
            rw [hdv2] at hplan
            exact (drugsLoop_ok_iff fails ds0 1 rows hplan).mpr ⟨hbind, hall⟩

lemma newlyNames_mem_iff (w : World) :
    ∀ (items : List (String × String)), (items.map Prod.fst).Nodup →
      ∀ (i j : Nat) (f x : String), items[j]? = some (f, x) →
        (f ∈ newlyNames w i items ↔
          (processItem (w.insertFails (i + j)) (w.llmResp (i + j))).completed = true) := by
  intro items
  induction items with
  | nil => intro _ i j f x h; exact absurd h (by simp)
  | cons gx rest ih =>
    intro hnd i j f x h
    rcases gx with ⟨g, y⟩
    have hnd2 : g ∉ rest.map Prod.fst ∧ (rest.map Prod.fst).Nodup := by
      rw [List.map_cons] at hnd
      exact List.nodup_cons.mp hnd
    rw [newlyNames]
    cases j with
    | zero =>
      rw [List.getElem?_cons_zero] at h
      injection h with h
      cases h
      simp only [Nat.add_zero]
      constructor
      · intro hm
        rcases List.mem_append.mp hm with hm | hm
        · by_cases hc : (processItem (w.insertFails i) (w.llmResp i)).completed = true
          · exact hc
          · rw [if_neg hc] at hm
            exact absurd hm (List.not_mem_nil f)
        · exact absurd (newlyNames_subset w rest (i + 1) f hm) hnd2.1
      · intro hc
        rw [if_pos hc]
        exact List.mem_append_left _ (List.mem_cons_self f [])
    | succ j =>
      rw [List.getElem?_cons_succ] at h
      have hf_in : f ∈ rest.map Prod.fst := by
        have hmem : (f, x) ∈ rest := List.getElem?_mem h
        exact List.mem_map_of_mem Prod.fst hmem
      have hg_ne : g ≠ f := fun he => absurd (he ▸ hf_in) hnd2.1
      have hrec := ih hnd2.2 (i + 1) j f x h
      rw [show i + 1 + j = i + (j + 1) by omega] at hrec
      rw [← hrec]
      constructor
      · intro hm
        rcases List.mem_append.mp hm with hm | hm
        · by_cases hc : (processItem (w.insertFails i) (w.llmResp i)).completed = true
          · rw [if_pos hc] at hm
            exact absurd (List.mem_singleton.mp hm) (Ne.symm hg_ne)
          · rw [if_neg hc] at hm
            exact absurd hm (List.not_mem_nil f)
        · exact hm
      · intro hm
        exact List.mem_append_right _ hm

lemma strIn_iff (f : String) (l : List String) : strIn f l = true ↔ f ∈ l := by
  unfold strIn
  rw [List.any_eq_true]
  constructor
  · rintro ⟨g, hg, he⟩
    have hde : g.data = f.data := by simpa using he
    have : g = f := by
      cases g; cases f
      exact congrArg String.mk (by simpa using hde)
    exact this ▸ hg
  · intro hf
    exact ⟨f, hf, by simp⟩

lemma extract_mem (w : World) (processed : List String) (f x : String) :
    (f, x) ∈ extract_text_from_pdfs w processed ↔
      (f ∈ w.folder ∧ isPdfName f = true ∧ strIn f processed = false ∧
        x = w.extracted f ∧ (w.extracted f).data.isEmpty = false) := by
  unfold extract_text_from_pdfs
  rw [List.mem_filterMap]
  constructor
  · rintro ⟨g, hg, hsome⟩
    rw [List.mem_filter] at hg
    obtain ⟨hg1, hg2⟩ := hg
    rw [List.mem_filter] at hg1
    obtain ⟨hfold, hpdf⟩ := hg1
    by_cases he : (w.extracted g).data.isEmpty = true
    · rw [if_pos he] at hsome
      exact absurd hsome (by simp)
    · rw [if_neg he] at hsome
      injection hsome with hsome
      injection hsome with hgf hx
      subst hgf
      refine ⟨hfold, hpdf, ?_, hx.symm, ?_⟩
      · revert hg2; cases strIn g processed <;> simp
      · revert he; cases (w.extracted g).data.isEmpty <;> simp
  · rintro ⟨h1, h2, h3, h4, h5⟩
    refine ⟨f, ?_, ?_⟩
    · rw [List.mem_filter]
      exact ⟨by rw [List.mem_filter]; exact ⟨h1, h2⟩, by simp [h3]⟩
    · rw [if_neg (by simp [h5]), h4]

lemma extract_names (w : World) (processed : List String) :
    (extract_text_from_pdfs w processed).map Prod.fst =
      ((w.folder.filter isPdfName).filter (fun f => !strIn f processed)).filter
        (fun f => !(w.extracted f).data.isEmpty) := by
  unfold extract_text_from_pdfs
  generalize (w.folder.filter isPdfName).filter (fun f => !strIn f processed) = l
  induction l with
  | nil => rfl
  | cons g rest ih =>
    rw [List.filterMap_cons, List.filter_cons]
    cases he : (w.extracted g).data.isEmpty with
    | true => exact ih
    | false => exact congrArg (List.cons g) ih

lemma extract_names_nodup (w : World) (processed : List String) (h : w.folder.Nodup) :
    ((extract_text_from_pdfs w processed).map Prod.fst).Nodup := by
  rw [extract_names]
  exact ((h.filter _).filter _).filter _

lemma runPipeline_nonempty (w : World) (lf : LedgerFile) (db : DB)
    (h : extract_text_from_pdfs w (load_processed_files lf) ≠ []) :
    runPipeline w lf db =
      ⟨(runItems w 0 (extract_text_from_pdfs w (load_processed_files lf)) db).1,
       .valid (load_processed_files lf ++
         (runItems w 0 (extract_text_from_pdfs w (load_processed_files lf)) db).2),
       1,
       (extract_text_from_pdfs w (load_processed_files lf)).map Prod.fst,
       (runItems w 0 (extract_text_from_pdfs w (load_processed_files lf)) db).2⟩ := by
  unfold runPipeline
  rw [if_neg]
  intro hcontra
  exact h (List.isEmpty_iff.mp hcontra)

lemma docAdds_zero (w : World) :
    ∀ (items : List (String × String)) (i : Nat) (f : String),
      f ∉ items.map Prod.fst → docAdds w i items f = 0 := by
  intro items
  induction items with
  | nil => intro i f _; rfl
  | cons gx rest ih =>
    intro i f hf
    rcases gx with ⟨g, y⟩
    rw [List.map_cons] at hf
    have hg : ¬ (g = f) := fun he => hf (he ▸ List.mem_cons_self g _)
    have hr : f ∉ rest.map Prod.fst := fun he => hf (List.mem_cons_of_mem g he)
    rw [docAdds, if_neg (fun hand => hg hand.1), ih (i + 1) f hr]

lemma docAdds_eq_one (w : World) :
    ∀ (items : List (String × String)), (items.map Prod.fst).Nodup →
      ∀ (i j : Nat) (f x : String), items[j]? = some (f, x) →
        w.insertFails (i + j) 0 = false →
        docAdds w i items f = 1 := by
  intro items
  induction items with
  | nil => intro _ i j f x h _; exact absurd h (by simp)
  | cons gx rest ih =>
    intro hnd i j f x h hok
    rcases gx with ⟨g, y⟩
    have hnd2 : g ∉ rest.map Prod.fst ∧ (rest.map Prod.fst).Nodup := by
      rw [List.map_cons] at hnd
      exact List.nodup_cons.mp hnd
    cases j with
    | zero =>
      rw [List.getElem?_cons_zero] at h
      injection h with h
      cases h
      simp only [Nat.add_zero] at hok
      rw [docAdds, if_pos ⟨rfl, hok⟩, docAdds_zero w rest (i + 1) f hnd2.1]
    | succ j =>
      rw [List.getElem?_cons_succ] at h
      have hf_in : f ∈ rest.map Prod.fst :=
        List.mem_map_of_mem Prod.fst (List.getElem?_mem h)
      have hg_ne : ¬ (g = f) := fun he => absurd (he ▸ hf_in) hnd2.1
      rw [docAdds, if_neg (fun hand => hg_ne hand.1)]
      have := ih hnd2.2 (i + 1) j f x h (by rw [show i + 1 + j = i + (j + 1) by omega]; exact hok)
      omega

/-- C2 (amended): when a run attempts at least one item, the ledger is
persisted exactly once, as the loaded list extended by the successes; a
source identifier enters the ledger exactly when its item was fully
successful (document insert, repair to a truthy mapping, enumeration of the
derivable rows, and every derived insert all succeed), only attempted items
are recorded, and a fully successful item's document row is persisted. -/
theorem c2_amended_ledger_characterization (w : World) (lf : LedgerFile) (db : DB)
    (hne : extract_text_from_pdfs w (load_processed_files lf) ≠ [])
    (hnd : w.folder.Nodup) :
    (runPipeline w lf db).ledgerSaves = 1 ∧
    (runPipeline w lf db).ledgerFile =
      LedgerFile.valid (load_processed_files lf ++ (runPipeline w lf db).newly) ∧
    (runPipeline w lf db).attempted =
      (extract_text_from_pdfs w (load_processed_files lf)).map Prod.fst ∧
    (∀ j f x, (extract_text_from_pdfs w (load_processed_files lf))[j]? = some (f, x) →
      ((f ∈ (runPipeline w lf db).newly) ↔
        FullySuccessful (w.insertFails j) (w.llmResp j))) ∧
    (∀ f, f ∈ (runPipeline w lf db).newly →
      f ∈ (extract_text_from_pdfs w (load_processed_files lf)).map Prod.fst) ∧
    (∀ j f x, (extract_text_from_pdfs w (load_processed_files lf))[j]? = some (f, x) →
      w.insertFails j 0 = false →
      docCount (runPipeline w lf db).db f = docCount db f + 1) := by
  rw [runPipeline_nonempty w lf db hne]
  refine ⟨rfl, rfl, rfl, ?_, ?_, ?_⟩
  · intro j f x hj
    rw [runItems_newly]
    rw [newlyNames_mem_iff w _ (extract_names_nodup w _ hnd) 0 j f x hj]
    rw [Nat.zero_add]
    exact processItem_completed_iff (w.insertFails j) (w.llmResp j)
  · intro f hf
    rw [runItems_newly] at hf
    exact newlyNames_subset w _ 0 f hf
  · intro j f x hj hok
    rw [runItems_docCount]
    rw [docAdds_eq_one w _ (extract_names_nodup w _ hnd) 0 j f x hj
      (by rw [Nat.zero_add]; exact hok)]

lemma runPipeline_empty (w : World) (lf : LedgerFile) (db : DB)
    (h : extract_text_from_pdfs w (load_processed_files lf) = []) :
    runPipeline w lf db = ⟨db, lf, 0, [], []⟩ := by
  unfold runPipeline
  rw [if_pos (List.isEmpty_iff.mpr h)]

/-- C3 (amended): when every item attempted in the first run completed (was
recorded), a second run with the same sources attempts zero items and leaves
the store and the ledger file exactly as the first run left them.  (A failed
item would be retried and would re-ingest a duplicate document row.) -/
theorem c3_amended_idempotence_after_full_success (w : World) (lf : LedgerFile) (db : DB)
    (hall : (runPipeline w lf db).newly = (runPipeline w lf db).attempted) :
    (runPipeline w (runPipeline w lf db).ledgerFile (runPipeline w lf db).db).attempted = [] ∧
    (runPipeline w (runPipeline w lf db).ledgerFile (runPipeline w lf db).db).newly = [] ∧
    (runPipeline w (runPipeline w lf db).ledgerFile (runPipeline w lf db).db).db =
      (runPipeline w lf db).db ∧
    (runPipeline w (runPipeline w lf db).ledgerFile (runPipeline w lf db).db).ledgerFile =
      (runPipeline w lf db).ledgerFile := by
  by_cases hne : extract_text_from_pdfs w (load_processed_files lf) = []
  · have hr1 := runPipeline_empty w lf db hne
    have hlf : (runPipeline w lf db).ledgerFile = lf := by rw [hr1]
    have hdb : (runPipeline w lf db).db = db := by rw [hr1]
    rw [hlf, hdb, hr1]
    exact ⟨rfl, rfl, rfl, rfl⟩
  · have hrun := runPipeline_nonempty w lf db hne
    have hpd2 : extract_text_from_pdfs w
        (load_processed_files lf ++
          (runItems w 0 (extract_text_from_pdfs w (load_processed_files lf)) db).2) = [] := by
      apply List.eq_nil_iff_forall_not_mem.mpr
      rintro ⟨f, x⟩ hp
      rw [extract_mem] at hp
      obtain ⟨h1, h2, h3, h4, h5⟩ := hp
      have hnm : ¬ f ∈ (load_processed_files lf ++
          (runItems w 0 (extract_text_from_pdfs w (load_processed_files lf)) db).2) := by
        intro hmem
        have := (strIn_iff f _).mpr hmem
        rw [h3] at this
        exact absurd this (by simp)
      have hsp : strIn f (load_processed_files lf) = false := by
        cases hs : strIn f (load_processed_files lf) with
        | false => rfl
        | true => exact absurd (List.mem_append_left _ ((strIn_iff f _).mp hs)) hnm
      have hin1 : (f, w.extracted f) ∈ extract_text_from_pdfs w (load_processed_files lf) :=
        (extract_mem w _ f _).mpr ⟨h1, h2, hsp, rfl, h5⟩
      have hfst : f ∈ (extract_text_from_pdfs w (load_processed_files lf)).map Prod.fst :=
        List.mem_map_of_mem Prod.fst hin1
      have hnew : f ∈ (runItems w 0 (extract_text_from_pdfs w (load_processed_files lf)) db).2 := by
        have hatt : (runPipeline w lf db).attempted =
            (extract_text_from_pdfs w (load_processed_files lf)).map Prod.fst := by rw [hrun]
        have hnewly : (runPipeline w lf db).newly =
            (runItems w 0 (extract_text_from_pdfs w (load_processed_files lf)) db).2 := by
          rw [hrun]
        rw [← hnewly, hall, hatt]
        exact hfst
      exact hnm (List.mem_append_right _ hnew)
    have hlf : (runPipeline w lf db).ledgerFile =
        LedgerFile.valid (load_processed_files lf ++
          (runItems w 0 (extract_text_from_pdfs w (load_processed_files lf)) db).2) := by
      rw [hrun]
    have hr2 : runPipeline w (runPipeline w lf db).ledgerFile (runPipeline w lf db).db =
        ⟨(runPipeline w lf db).db, (runPipeline w lf db).ledgerFile, 0, [], []⟩ := by
      apply runPipeline_empty
      rw [hlf]
      exact hpd2
    rw [hr2]
    exact ⟨rfl, rfl, rfl, rfl⟩

/-- Witness for C3 (amended): the demo run completes its single item; the
second run attempts nothing. -/
theorem c3_amended_witness :
    (runPipeline demoWorld (LedgerFile.valid []) DB.empty).newly =
      (runPipeline demoWorld (LedgerFile.valid []) DB.empty).attempted ∧
    (runPipeline demoWorld
      (runPipeline demoWorld (LedgerFile.valid []) DB.empty).ledgerFile
      (runPipeline demoWorld (LedgerFile.valid []) DB.empty).db).attempted = [] :=
  ⟨rfl, (c3_amended_idempotence_after_full_success demoWorld (LedgerFile.valid []) DB.empty rfl).1⟩

/-- Witness for C2 (amended) at the demo world. -/
theorem c2_amended_witness :
    extract_text_from_pdfs demoWorld (load_processed_files (LedgerFile.valid [])) ≠ [] ∧
    demoWorld.folder.Nodup ∧
    (runPipeline demoWorld (LedgerFile.valid []) DB.empty).ledgerSaves = 1 ∧
    (runPipeline demoWorld (LedgerFile.valid []) DB.empty).ledgerFile =
      LedgerFile.valid (load_processed_files (LedgerFile.valid []) ++
        (runPipeline demoWorld (LedgerFile.valid []) DB.empty).newly) :=
  ⟨by decide, by decide,
   (c2_amended_ledger_characterization demoWorld (LedgerFile.valid []) DB.empty
     (by decide) (by decide)).1,
   (c2_amended_ledger_characterization demoWorld (LedgerFile.valid []) DB.empty
     (by decide) (by decide)).2.1⟩

lemma processItem_llm_none (fails : Nat → Bool) :
    (processItem fails none).completed = false := by
  unfold processItem
  cases hf : fails 0 with
  | true => rfl
  | false => rfl

/-- C4: every discovered item is attempted regardless of other items'
failures; whether an item is recorded depends only on its own inference
response and its own insert outcomes (changing item `b`'s data never changes
a sibling's ledger membership); and an item whose inference call fails is
itself not recorded. -/
theorem c4_failure_isolation (w wB : World) (b : Nat) (lf : LedgerFile) (db : DB)
    (hfolder : wB.folder = w.folder) (hext : wB.extracted = w.extracted)
    (hllm : ∀ i, i ≠ b → wB.llmResp i = w.llmResp i)
    (hfail : ∀ i, i ≠ b → wB.insertFails i = w.insertFails i)
    (hnd : w.folder.Nodup) :
    (runPipeline w lf db).attempted =
      (extract_text_from_pdfs w (load_processed_files lf)).map Prod.fst ∧
    (runPipeline wB lf db).attempted = (runPipeline w lf db).attempted ∧
    (∀ i f x, (extract_text_from_pdfs w (load_processed_files lf))[i]? = some (f, x) →
      i ≠ b →
      ((f ∈ (runPipeline w lf db).newly) ↔ (f ∈ (runPipeline wB lf db).newly))) ∧
    (∀ f x, (extract_text_from_pdfs w (load_processed_files lf))[b]? = some (f, x) →
      w.llmResp b = none → f ∉ (runPipeline w lf db).newly) := by
  have hpdeq : extract_text_from_pdfs wB (load_processed_files lf) =
      extract_text_from_pdfs w (load_processed_files lf) := by
    unfold extract_text_from_pdfs
    rw [hfolder, hext]
  have hndnames := extract_names_nodup w (load_processed_files lf) hnd
  by_cases hne : extract_text_from_pdfs w (load_processed_files lf) = []
  · have hr1 := runPipeline_empty w lf db hne
    have hr2 := runPipeline_empty wB lf db (by rw [hpdeq]; exact hne)
    refine ⟨by rw [hr1, hne]; rfl, by rw [hr1, hr2], ?_, ?_⟩
    · intro i f x hi _
      rw [hne] at hi
      exact absurd hi (by simp)
    · intro f x hb
      rw [hne] at hb
      exact absurd hb (by simp)
  · have hrun := runPipeline_nonempty w lf db hne
    have hrunB := runPipeline_nonempty wB lf db (by rw [hpdeq]; exact hne)
    refine ⟨by rw [hrun], ?_, ?_, ?_⟩
    · rw [hrun, hrunB, hpdeq]
    · intro i f x hi hib
      have hm1 : (f ∈ (runPipeline w lf db).newly) ↔
          (processItem (w.insertFails i) (w.llmResp i)).completed = true := by
        rw [hrun]
        show f ∈ (runItems w 0 _ db).2 ↔ _
        rw [runItems_newly]
        have := newlyNames_mem_iff w _ hndnames 0 i f x hi
        rw [Nat.zero_add] at this
        exact this
      have hm2 : (f ∈ (runPipeline wB lf db).newly) ↔
          (processItem (wB.insertFails i) (wB.llmResp i)).completed = true := by
        rw [hrunB]
        show f ∈ (runItems wB 0 _ db).2 ↔ _
        rw [runItems_newly]
        have := newlyNames_mem_iff wB (extract_text_from_pdfs wB (load_processed_files lf))
          (by rw [hpdeq]; exact hndnames) 0 i f x (by rw [hpdeq]; exact hi)
        rw [Nat.zero_add] at this
        exact this
      rw [hm1, hm2, hllm i hib, hfail i hib]
    · intro f x hb hnone
      have hm1 : (f ∈ (runPipeline w lf db).newly) ↔
          (processItem (w.insertFails b) (w.llmResp b)).completed = true := by
        rw [hrun]
        show f ∈ (runItems w 0 _ db).2 ↔ _
        rw [runItems_newly]
        have := newlyNames_mem_iff w _ hndnames 0 b f x hb
        rw [Nat.zero_add] at this
        exact this
      rw [hm1, hnone, processItem_llm_none]
      simp

def c4World : World :=
  ⟨["a.pdf", "b.pdf"], fun _ => "text",
   fun i => if i = 0 then none else some "\x7b\"drugs\": []\x7d",
   fun _ _ => false⟩

/-- Witness for C4: item 0's inference call fails, item 1 is still attempted
and recorded; item 0 is not recorded. -/
theorem c4_witness :
    c4World.folder.Nodup ∧
    (runPipeline c4World (LedgerFile.valid []) DB.empty).attempted = ["a.pdf", "b.pdf"] ∧
    "a.pdf" ∉ (runPipeline c4World (LedgerFile.valid []) DB.empty).newly ∧
    "b.pdf" ∈ (runPipeline c4World (LedgerFile.valid []) DB.empty).newly := by
  refine ⟨by decide, ?_, ?_, by decide⟩
  · exact (c4_failure_isolation c4World c4World 0 (LedgerFile.valid []) DB.empty
      rfl rfl (fun i _ => rfl) (fun i _ => rfl) (by decide)).1.trans rfl
  · exact (c4_failure_isolation c4World c4World 0 (LedgerFile.valid []) DB.empty
      rfl rfl (fun i _ => rfl) (fun i _ => rfl) (by decide)).2.2.2 "a.pdf" "text" rfl rfl

/-- C10: a corrupt ledger file loads as the empty list, so the run treats
every readable `.pdf` in the folder as unprocessed and inserts one more
document row for each attempted item whose document insert succeeds —
re-ingesting previously processed documents as duplicate rows. -/
theorem c10_corrupt_ledger_reingestion (w : World) (db : DB) (hnd : w.folder.Nodup) :
    load_processed_files LedgerFile.corrupt = [] ∧
    (runPipeline w LedgerFile.corrupt db).attempted =
      (extract_text_from_pdfs w []).map Prod.fst ∧
    (∀ j f x, (extract_text_from_pdfs w [])[j]? = some (f, x) →
      w.insertFails j 0 = false →
      docCount (runPipeline w LedgerFile.corrupt db).db f = docCount db f + 1) := by
  refine ⟨rfl, ?_, ?_⟩
  · by_cases hne : extract_text_from_pdfs w [] = []
    · rw [runPipeline_empty w LedgerFile.corrupt db hne, hne]
      rfl
    · rw [runPipeline_nonempty w LedgerFile.corrupt db hne]
      rfl
  · intro j f x hj hok
    by_cases hne : extract_text_from_pdfs w [] = []
    · rw [hne] at hj
      exact absurd hj (by simp)
    · rw [runPipeline_nonempty w LedgerFile.corrupt db hne]
      show docCount (runItems w 0 (extract_text_from_pdfs w []) db).1 f = _
      rw [runItems_docCount]
      rw [docAdds_eq_one w _ (extract_names_nodup w [] hnd) 0 j f x hj
        (by rw [Nat.zero_add]; exact hok)]

def c10db : DB := ⟨[(1, "a.pdf", "prev text")], [], [], 2, 1, 1⟩

/-- Witness for C10: a document already stored once is re-ingested under a
corrupt ledger, leaving two rows with its filename. -/
theorem c10_witness :
    demoWorld.folder.Nodup ∧
    docCount c10db "a.pdf" = 1 ∧
    docCount (runPipeline demoWorld LedgerFile.corrupt c10db).db "a.pdf" = 2 := by
  refine ⟨by decide, by decide, ?_⟩
  have := (c10_corrupt_ledger_reingestion demoWorld c10db (by decide)).2.2
    0 "a.pdf" "Mel text" rfl rfl
  rw [this]
  decide

/-!
## Claims C6 and C7 — quote-swapped and fence-wrapped object texts

`swapQuotes` is the transformation named by claim C6 (every double-quote
replaced by a single-quote).  The amended claims quantify over canonically
serialized objects drawn from a safe character set: letters, digits, space,
`_`, `-`, `.`, `%` in keys and string values, no numeric literals, no
whitespace between tokens.  On this class the cleaning transformations are
the identity and the strict parser round-trips, which is exactly what the
counterexamples show can fail outside it.
-/

/-- The transformation of claim C6: every `"` replaced by `'`. -/
def swapQuotes (l : List Char) : List Char :=
  l.map (fun c => if c = '"' then '\x27' else c)

/-- Characters allowed in keys and string values of the safe class:
letters, digits, space, `_`, `-`, `.`, `%`. -/
def safeChar (c : Char) : Bool :=
  (97 ≤ c.toNat && c.toNat ≤ 122) || (65 ≤ c.toNat && c.toNat ≤ 90) ||
  (48 ≤ c.toNat && c.toNat ≤ 57) ||
  c = ' ' || c = '_' || c = '-' || c = '.' || c = '%'

def safeStrB (s : String) : Bool := s.data.all safeChar

/-- Key lists without duplicates (so parsing does not merge fields). -/
def distinctKeys : List String → Bool
  | [] => true
  | k :: rest => !(strIn k rest) && distinctKeys rest

mutual

/-- Membership in the safe class: no numbers, safe strings and keys,
duplicate-free keys. -/
def safeVal : JVal → Bool
  | .null => true
  | .bool _ => true
  | .num _ => false
  | .str s => safeStrB s
  | .arr l => safeArr l
  | .obj fs => distinctKeys (fs.map Prod.fst) && safeFields fs

def safeArr : List JVal → Bool
  | [] => true
  | v :: rest => safeVal v && safeArr rest

def safeFields : List (String × JVal) → Bool
  | [] => true
  | (k, v) :: rest => safeStrB k && safeVal v && safeFields rest

end

mutual

/-- Canonical serialization: double-quoted strings, no inter-token
whitespace. -/
def serVal : JVal → List Char
  | .null => ("null").data
  | .bool true => ("true").data
  | .bool false => ("false").data
  | .num _ => []
  | .str s => '"' :: s.data ++ ['"']
  | .arr l => '[' :: serArr l ++ [']']
  | .obj fs => '{' :: serObj fs ++ ['}']

def serArr : List JVal → List Char
  | [] => []
  | [v] => serVal v
  | v :: rest => serVal v ++ ',' :: serArr rest

def serObj : List (String × JVal) → List Char
  | [] => []
  | [(k, v)] => '"' :: k.data ++ '"' :: ':' :: serVal v
  | (k, v) :: rest => ('"' :: k.data ++ '"' :: ':' :: serVal v) ++ ',' :: serObj rest

end

example : serVal (.obj [("a", .str "x y"), ("b", .arr [.null, .bool true])]) =
    ("\x7b\"a\":\"x y\",\"b\":[null,true]\x7d").data := by decide

example : safeVal (.obj [("a", .str "x y"), ("b", .arr [.null, .bool true])]) = true := by decide

lemma safeChar_facts (c : Char) (h : safeChar c = true) :
    ¬ c = '"' ∧ ¬ c = '\\' ∧ ¬ c = '\x27' ∧ ¬ c = ',' ∧ ¬ c = '\x7b' ∧ ¬ c.toNat < 32 := by
  unfold safeChar at h
  simp only [Bool.or_eq_true, Bool.and_eq_true, decide_eq_true_eq] at h
  rcases h with (((((((⟨h1, h2⟩ | ⟨h1, h2⟩) | ⟨h1, h2⟩) | rfl) | rfl) | rfl) | rfl) | rfl)
  all_goals refine ⟨?_, ?_, ?_, ?_, ?_, ?_⟩
  all_goals first
    | decide
    | omega
    | (intro he; subst he;
       first
         | exact absurd h1 (by decide)
         | exact absurd h2 (by decide))

/-- Splitting `takeWhile`/`dropWhile` at a known boundary. -/
lemma span_append (p : Char → Bool) :
    ∀ (L b : List Char), (∀ c ∈ L, p c = true) →
      (∀ c, b.head? = some c → p c = false) →
      (L ++ b).takeWhile p = L ∧ (L ++ b).dropWhile p = b := by
  intro L
  induction L with
  | nil =>
    intro b _ hb
    cases b with
    | nil => exact ⟨rfl, rfl⟩
    | cons c r =>
      have := hb c rfl
      constructor
      · rw [List.nil_append, List.takeWhile_cons, this]
        simp
      · rw [List.nil_append, List.dropWhile_cons, this]
        simp
  | cons a L ih =>
    intro b hL hb
    have ha := hL a (List.mem_cons_self a L)
    have hrest := ih b (fun c hc => hL c (List.mem_cons_of_mem a hc)) hb
    constructor
    · rw [List.cons_append, List.takeWhile_cons, ha]
      simp [hrest.1]
    · rw [List.cons_append, List.dropWhile_cons, ha]
      simp [hrest.2]

lemma parseStringBody_cons_other (c : Char) (l : List Char)
    (h1 : ¬ c = '"') (h2 : ¬ c = '\\') (h3 : ¬ c.toNat < 32) :
    parseStringBody (c :: l) =
      (match parseStringBody l with
       | none => none
       | some (s, r) => some (c :: s, r)) := by
  rw [parseStringBody.eq_def]
  split
  next heq => exact absurd heq (by simp)
  next heq => exact absurd (List.cons.inj heq).1 h1
  next heq => exact absurd (List.cons.inj heq).1 h2
  next c2 l2 heq =>
    obtain ⟨hc2, hl2⟩ := List.cons.inj heq
    subst hc2
    subst hl2
    rw [if_neg h3]

/-- The string-body parser on safe content followed by the closing quote. -/
lemma parseStringBody_safe :
    ∀ (L : List Char), (∀ c ∈ L, safeChar c = true) → ∀ (rest : List Char),
      parseStringBody (L ++ '"' :: rest) = some (L, rest) := by
  intro L
  induction L with
  | nil => intro _ rest; rfl
  | cons c L ih =>
    intro hL rest
    have hc := safeChar_facts c (hL c (List.mem_cons_self c L))
    rw [List.cons_append,
      parseStringBody_cons_other c _ hc.1 hc.2.1 hc.2.2.2.2.2,
      ih (fun d hd => hL d (List.mem_cons_of_mem c hd)) rest]

lemma skipWs_not_ws (c : Char) (h : jsonWs c = false) (l : List Char) :
    skipWs (c :: l) = c :: l := by
  rw [skipWs, h]
  simp

/-- The first character of a safe value's serialization: never whitespace,
never a closing bracket, never a Python-regex whitespace character. -/
lemma serVal_head (v : JVal) (hs : safeVal v = true) :
    ∃ c t, serVal v = c :: t ∧ jsonWs c = false ∧ pyWs c = false ∧
      ¬ c = ']' ∧ ¬ c = '\x7d' := by
  cases v with
  | null => exact ⟨'n', _, rfl, by decide, by decide, by decide, by decide⟩
  | bool b =>
    cases b with
    | true => exact ⟨'t', _, rfl, by decide, by decide, by decide, by decide⟩
    | false => exact ⟨'f', _, rfl, by decide, by decide, by decide, by decide⟩
  | num n => exact absurd hs (by simp [safeVal])
  | str s => exact ⟨'"', _, rfl, by decide, by decide, by decide, by decide⟩
  | arr l => exact ⟨'[', _, rfl, by decide, by decide, by decide, by decide⟩
  | obj fs => exact ⟨'\x7b', _, rfl, by decide, by decide, by decide, by decide⟩

lemma serArr_head (l : List JVal) (hs : safeArr l = true) (hne : l ≠ []) :
    ∃ c t, serArr l = c :: t ∧ jsonWs c = false ∧ pyWs c = false ∧
      ¬ c = ']' ∧ ¬ c = '\x7d' := by
  cases l with
  | nil => exact absurd rfl hne
  | cons v rest =>
    have hsv : safeVal v = true := by
      rw [safeArr] at hs
      simp only [Bool.and_eq_true] at hs
      exact hs.1
    obtain ⟨c, t, hct, h1, h2, h3, h4⟩ := serVal_head v hsv
    cases rest with
    | nil => exact ⟨c, t, hct, h1, h2, h3, h4⟩
    | cons w r =>
      refine ⟨c, t ++ ',' :: serArr (w :: r), ?_, h1, h2, h3, h4⟩
      show serVal v ++ ',' :: serArr (w :: r) = c :: (t ++ ',' :: serArr (w :: r))
      rw [hct, List.cons_append]

lemma serObj_head (fs : List (String × JVal)) (hne : fs ≠ []) :
    ∃ t, serObj fs = '"' :: t := by
  cases fs with
  | nil => exact absurd rfl hne
  | cons kv rest =>
    rcases kv with ⟨k, v⟩
    cases rest with
    | nil => exact ⟨_, rfl⟩
    | cons p ps =>
      refine ⟨(k.data ++ '"' :: ':' :: serVal v) ++ ',' :: serObj (p :: ps), ?_⟩
      show ('"' :: (k.data ++ '"' :: ':' :: serVal v)) ++ ',' :: serObj (p :: ps) =
        '"' :: ((k.data ++ '"' :: ':' :: serVal v) ++ ',' :: serObj (p :: ps))
      rw [List.cons_append]

lemma setKey_not_mem (k : String) (v : JVal) :
    ∀ (acc : List (String × JVal)), ¬ k ∈ acc.map Prod.fst →
      setKey acc k v = acc ++ [(k, v)] := by
  intro acc
  induction acc with
  | nil => intro _; rfl
  | cons kv rest ih =>
    intro h
    rcases kv with ⟨k0, v0⟩
    rw [List.map_cons] at h
    have hk0 : ¬ k0 = k := fun he => h (he ▸ List.mem_cons_self k0 _)
    rw [setKey, if_neg hk0, ih (fun hm => h (List.mem_cons_of_mem k0 hm))]
    rfl

lemma foldl_setKey_distinct :
    ∀ (pairs acc : List (String × JVal)),
      (∀ k ∈ pairs.map Prod.fst, ¬ k ∈ acc.map Prod.fst) →
      distinctKeys (pairs.map Prod.fst) = true →
      pairs.foldl (fun a kv => setKey a kv.1 kv.2) acc = acc ++ pairs := by
  intro pairs
  induction pairs with
  | nil => intro acc _ _; simp
  | cons kv rest ih =>
    intro acc hdisj hdk
    rcases kv with ⟨k, v⟩
    rw [List.map_cons, distinctKeys] at hdk
    simp only [Bool.and_eq_true] at hdk
    obtain ⟨hk1, hk2⟩ := hdk
    have hdisj2 : ∀ k2 ∈ rest.map Prod.fst, ¬ k2 ∈ (acc ++ [(k, v)]).map Prod.fst := by
      intro k2 hk2mem
      rw [List.map_append]
      intro hmem
      rcases List.mem_append.mp hmem with hm | hm
      · exact hdisj k2 (by rw [List.map_cons]; exact List.mem_cons_of_mem k hk2mem) hm
      · have he : k2 = k := by simpa using hm
        subst he
        have hin : strIn k2 (rest.map Prod.fst) = true := (strIn_iff _ _).mpr hk2mem
        rw [hin] at hk1
        exact absurd hk1 (by simp)
    rw [List.foldl_cons]
    rw [setKey_not_mem k v acc (hdisj k (by rw [List.map_cons]; exact List.mem_cons_self k _))]
    rw [ih (acc ++ [(k, v)]) hdisj2 hk2]
    rw [List.append_assoc]
    rfl

lemma buildObj_distinct (pairs : List (String × JVal))
    (h : distinctKeys (pairs.map Prod.fst) = true) : buildObj pairs = pairs := by
  unfold buildObj
  rw [foldl_setKey_distinct pairs [] (by simp) h]
  rfl

lemma parseVal_lbracket (m : Nat) (X : List Char) (c : Char) (t : List Char)
    (hX : skipWs X = c :: t) (hc : ¬ c = ']') :
    parseVal (m + 1) ('[' :: X) =
      (parseElems m (c :: t)).map (fun p => (JVal.arr p.1, p.2)) := by
  show (match skipWs X with
        | ']' :: r => some (JVal.arr [], r)
        | l1 => (parseElems m l1).map (fun p => (JVal.arr p.1, p.2)))
      = (parseElems m (c :: t)).map (fun p => (JVal.arr p.1, p.2))
  rw [hX]
  split
  next heq => exact absurd (List.cons.inj heq).1 hc
  next => rfl

lemma parseElems_step (m : Nat) (L : List Char) (v : JVal) (r : List Char)
    (hv : parseVal m L = some (v, r)) :
    parseElems (m + 1) L =
      (match skipWs r with
       | ',' :: r2 =>
         (match parseElems m (skipWs r2) with
          | none => none
          | some (vs, r3) => some (v :: vs, r3))
       | ']' :: r2 => some ([v], r2)
       | _ => none) := by
  show (match parseVal m L with
        | none => none
        | some (v, r) =>
          match skipWs r with
          | ',' :: r2 =>
            (match parseElems m (skipWs r2) with
             | none => none
             | some (vs, r3) => some (v :: vs, r3))
          | ']' :: r2 => some ([v], r2)
          | _ => none) = _
  rw [hv]

mutual

/-- The parser recovers every safe value from its canonical serialization,
leaving the trailing input untouched. -/
theorem parse_serVal (v : JVal) (hs : safeVal v = true) :
    ∀ (n : Nat) (rest : List Char), 2 * (serVal v).length + rest.length < n →
      parseVal n (serVal v ++ rest) = some (v, rest) := by
  intro n rest hlen
  cases n with
  | zero => exact absurd hlen (by omega)
  | succ m =>
    cases v with
    | null => rfl
    | bool b =>
      cases b with
      | true => rfl
      | false => rfl
    | num k => exact absurd hs (by simp [safeVal])
    | str s =>
      have hsafe : ∀ c ∈ s.data, safeChar c = true := by
        rw [safeVal] at hs
        unfold safeStrB at hs
        exact fun c hc => List.all_eq_true.mp hs c hc
      have harr : serVal (JVal.str s) ++ rest = '"' :: (s.data ++ '"' :: rest) := by
        show ('"' :: (s.data ++ ['"'])) ++ rest = _
        rw [List.cons_append, List.append_assoc]
        rfl
      rw [harr]
      show (parseStringBody (s.data ++ '"' :: rest)).map
          (fun p => (JVal.str (String.mk p.1), p.2)) = some (JVal.str s, rest)
      rw [parseStringBody_safe s.data hsafe rest]
      rfl
    | arr l =>
      cases l with
      | nil => rfl
      | cons v' l'' =>
        have hsarr : safeArr (v' :: l'') = true := by rw [safeVal] at hs; exact hs
        obtain ⟨c, t, hct, hcw, _, hcbr, _⟩ := serArr_head (v' :: l'') hsarr (by simp)
        have harr : serVal (JVal.arr (v' :: l'')) ++ rest =
            '[' :: (serArr (v' :: l'') ++ ']' :: rest) := by
          show ('[' :: (serArr (v' :: l'') ++ [']'])) ++ rest = _
          rw [List.cons_append, List.append_assoc]
          rfl
        rw [harr]
        have hskip : skipWs (serArr (v' :: l'') ++ ']' :: rest) = c :: (t ++ ']' :: rest) := by
          rw [hct, List.cons_append]
          exact skipWs_not_ws c hcw _
        rw [parseVal_lbracket m _ c (t ++ ']' :: rest) hskip hcbr]
        have hback : c :: (t ++ ']' :: rest) = serArr (v' :: l'') ++ ']' :: rest := by
          rw [hct, List.cons_append]
        rw [hback]
        have hlen2 : 2 * (serArr (v' :: l'')).length + rest.length + 2 < m := by
          have hL : (serVal (JVal.arr (v' :: l''))).length = (serArr (v' :: l'')).length + 2 := by
            show ('[' :: (serArr (v' :: l'') ++ [']'])).length = _
            simp only [List.length_cons, List.length_append, List.length_nil]
          omega
        rw [parse_serArr (v' :: l'') hsarr (by simp) m rest hlen2]
        rfl
    | obj fs =>
      cases fs with
      | nil => rfl
      | cons kv fs' =>
        rw [safeVal] at hs
        simp only [Bool.and_eq_true] at hs
        obtain ⟨hdk, hsf⟩ := hs
        obtain ⟨t0, ht0⟩ := serObj_head (kv :: fs') (by simp)
        have harr : serVal (JVal.obj (kv :: fs')) ++ rest =
            '\x7b' :: (serObj (kv :: fs') ++ '\x7d' :: rest) := by
          show ('\x7b' :: (serObj (kv :: fs') ++ ['\x7d'])) ++ rest = _
          rw [List.cons_append, List.append_assoc]
          rfl
        rw [harr]
        rw [ht0, List.cons_append]
        show (parseMembers m ('"' :: (t0 ++ '\x7d' :: rest))).map
            (fun p => (JVal.obj (buildObj p.1), p.2)) = some (JVal.obj (kv :: fs'), rest)
        have hm := parse_serObj (kv :: fs') hsf m rest (by simp) (by
          have hL : (serVal (JVal.obj (kv :: fs'))).length = (serObj (kv :: fs')).length + 2 := by
            show ('\x7b' :: (serObj (kv :: fs') ++ ['\x7d'])).length = _
            simp only [List.length_cons, List.length_append, List.length_nil]
          omega)
        rw [ht0, List.cons_append] at hm
        rw [hm]
        show some (JVal.obj (buildObj (kv :: fs')), rest) = some (JVal.obj (kv :: fs'), rest)
        rw [buildObj_distinct (kv :: fs') hdk]

/-- The element parser recovers a nonempty safe list from its serialization
followed by the closing bracket. -/
theorem parse_serArr (l : List JVal) (hs : safeArr l = true) (hne : l ≠ []) :
    ∀ (n : Nat) (rest : List Char), 2 * (serArr l).length + rest.length + 2 < n →
      parseElems n (serArr l ++ ']' :: rest) = some (l, rest) := by
  intro n rest hlen
  cases n with
  | zero => exact absurd hlen (by omega)
  | succ m =>
    cases l with
    | nil => exact absurd rfl hne
    | cons v' l'' =>
      rw [safeArr] at hs
      simp only [Bool.and_eq_true] at hs
      obtain ⟨hsv, hsrest⟩ := hs
      cases l'' with
      | nil =>
        have hE : (serArr [v']).length = (serVal v').length := rfl
        rw [hE] at hlen
        have hv := parse_serVal v' hsv m (']' :: rest) (by
          simp only [List.length_cons]
          omega)
        have hv2 : parseVal m (serArr [v'] ++ ']' :: rest) = some (v', ']' :: rest) := hv
        rw [parseElems_step m _ v' (']' :: rest) hv2]
        rfl
      | cons w tl =>
        have hA : (serArr (v' :: w :: tl)).length =
            (serVal v').length + 1 + (serArr (w :: tl)).length := by
          show (serVal v' ++ ',' :: serArr (w :: tl)).length = _
          simp only [List.length_append, List.length_cons]
          omega
        have hIn : serArr (v' :: w :: tl) ++ ']' :: rest =
            serVal v' ++ ',' :: (serArr (w :: tl) ++ ']' :: rest) := by
          show (serVal v' ++ ',' :: serArr (w :: tl)) ++ ']' :: rest = _
          rw [List.append_assoc]
          rfl
        rw [hIn]
        rw [hA] at hlen
        have hv := parse_serVal v' hsv m (',' :: (serArr (w :: tl) ++ ']' :: rest)) (by
          simp only [List.length_cons, List.length_append]
          omega)
        rw [parseElems_step m _ v' _ hv]
        obtain ⟨c, t, hct, hcw, _, _, _⟩ := serArr_head (w :: tl) hsrest (by simp)
        have hskip : skipWs (serArr (w :: tl) ++ ']' :: rest) =
            serArr (w :: tl) ++ ']' :: rest := by
          rw [hct, List.cons_append]
          exact skipWs_not_ws c hcw _
        show (match parseElems m (skipWs (serArr (w :: tl) ++ ']' :: rest)) with
              | none => none
              | some (vs, r3) => some (v' :: vs, r3)) = some (v' :: w :: tl, rest)
        rw [hskip, parse_serArr (w :: tl) hsrest (by simp) m rest (by omega)]

/-- The member parser recovers a nonempty safe field list from its
serialization followed by the closing brace. -/
theorem parse_serObj (fs : List (String × JVal)) (hs : safeFields fs = true) :
    ∀ (n : Nat) (rest : List Char), fs ≠ [] →
      2 * (serObj fs).length + rest.length + 2 < n →
      parseMembers n (serObj fs ++ '\x7d' :: rest) = some (fs, rest) := by
  intro n rest hne hlen
  cases n with
  | zero => exact absurd hlen (by omega)
  | succ m =>
    cases fs with
    | nil => exact absurd rfl hne
    | cons kv fs' =>
      rcases kv with ⟨k, v⟩
      rw [safeFields] at hs
      simp only [Bool.and_eq_true] at hs
      obtain ⟨⟨hkS, hsv⟩, hsr⟩ := hs
      have hkSafe : ∀ c ∈ k.data, safeChar c = true := by
        unfold safeStrB at hkS
        exact fun c hc => List.all_eq_true.mp hkS c hc
      obtain ⟨cv, tv, hcv, hvw, _, _, _⟩ := serVal_head v hsv
      cases fs' with
      | nil =>
        have hO : (serObj [(k, v)]).length = k.data.length + 3 + (serVal v).length := by
          show ('"' :: (k.data ++ '"' :: ':' :: serVal v)).length = _
          simp only [List.length_cons, List.length_append]
          omega
        have hIn : serObj [(k, v)] ++ '\x7d' :: rest =
            '"' :: (k.data ++ '"' :: ':' :: (serVal v ++ '\x7d' :: rest)) := by
          show ('"' :: (k.data ++ '"' :: ':' :: serVal v)) ++ '\x7d' :: rest = _
          rw [List.cons_append, List.append_assoc]
          rfl
        rw [hIn]
        rw [hO] at hlen
        have hk := parseStringBody_safe k.data hkSafe (':' :: (serVal v ++ '\x7d' :: rest))
        show (match parseStringBody (k.data ++ '"' :: ':' :: (serVal v ++ '\x7d' :: rest)) with
              | none => none
              | some (k2, r1) =>
                match skipWs r1 with
                | ':' :: r2 =>
                  (match parseVal m (skipWs r2) with
                   | none => none
                   | some (v2, r3) =>
                     match skipWs r3 with
                     | ',' :: r4 =>
                       (match parseMembers m (skipWs r4) with
                        | none => none
                        | some (fs2, r5) => some ((String.mk k2, v2) :: fs2, r5))
                     | '\x7d' :: r4 => some ([(String.mk k2, v2)], r4)
                     | _ => none)
                | _ => none) = some ([(k, v)], rest)
        rw [hk]
        have hskip2 : skipWs (serVal v ++ '\x7d' :: rest) = serVal v ++ '\x7d' :: rest := by
          rw [hcv, List.cons_append]
          exact skipWs_not_ws cv hvw _
        show (match parseVal m (skipWs (serVal v ++ '\x7d' :: rest)) with
              | none => none
              | some (v2, r3) =>
                match skipWs r3 with
                | ',' :: r4 =>
                  (match parseMembers m (skipWs r4) with
                   | none => none
                   | some (fs2, r5) => some ((k, v2) :: fs2, r5))
                | '\x7d' :: r4 => some ([(k, v2)], r4)
                | _ => none) = some ([(k, v)], rest)
        rw [hskip2, parse_serVal v hsv m ('\x7d' :: rest) (by
          simp only [List.length_cons]
          omega)]
        rfl
      | cons p ps =>
        have hO : (serObj ((k, v) :: p :: ps)).length =
            k.data.length + 3 + (serVal v).length + 1 + (serObj (p :: ps)).length := by
          show (('"' :: (k.data ++ '"' :: ':' :: serVal v)) ++ ',' :: serObj (p :: ps)).length = _
          simp only [List.length_cons, List.length_append]
          omega
        have hIn : serObj ((k, v) :: p :: ps) ++ '\x7d' :: rest =
            '"' :: (k.data ++ '"' :: ':' ::
              (serVal v ++ ',' :: (serObj (p :: ps) ++ '\x7d' :: rest))) := by
          show (('"' :: (k.data ++ '"' :: ':' :: serVal v)) ++ ',' :: serObj (p :: ps))
              ++ '\x7d' :: rest = _
          rw [List.append_assoc, List.cons_append, List.cons_append, List.append_assoc]
          rfl
        rw [hIn]
        rw [hO] at hlen
        have hk := parseStringBody_safe k.data hkSafe
          (':' :: (serVal v ++ ',' :: (serObj (p :: ps) ++ '\x7d' :: rest)))
        show (match parseStringBody (k.data ++ '"' :: ':' ::
                (serVal v ++ ',' :: (serObj (p :: ps) ++ '\x7d' :: rest))) with
              | none => none
              | some (k2, r1) =>
                match skipWs r1 with
                | ':' :: r2 =>
                  (match parseVal m (skipWs r2) with
                   | none => none
                   | some (v2, r3) =>
                     match skipWs r3 with
                     | ',' :: r4 =>
                       (match parseMembers m (skipWs r4) with
                        | none => none
                        | some (fs2, r5) => some ((String.mk k2, v2) :: fs2, r5))
                     | '\x7d' :: r4 => some ([(String.mk k2, v2)], r4)
                     | _ => none)
                | _ => none) = some ((k, v) :: p :: ps, rest)
        rw [hk]
        have hskip2 : skipWs (serVal v ++ ',' :: (serObj (p :: ps) ++ '\x7d' :: rest)) =
            serVal v ++ ',' :: (serObj (p :: ps) ++ '\x7d' :: rest) := by
          rw [hcv, List.cons_append]
          exact skipWs_not_ws cv hvw _
        show (match parseVal m (skipWs (serVal v ++ ',' ::
                (serObj (p :: ps) ++ '\x7d' :: rest))) with
              | none => none
              | some (v2, r3) =>
                match skipWs r3 with
                | ',' :: r4 =>
                  (match parseMembers m (skipWs r4) with
                   | none => none
                   | some (fs2, r5) => some ((k, v2) :: fs2, r5))
                | '\x7d' :: r4 => some ([(k, v2)], r4)
                | _ => none) = some ((k, v) :: p :: ps, rest)
        rw [hskip2, parse_serVal v hsv m
          (',' :: (serObj (p :: ps) ++ '\x7d' :: rest)) (by
            simp only [List.length_cons, List.length_append]
            omega)]
        obtain ⟨t1, ht1⟩ := serObj_head (p :: ps) (by simp)
        have hskip3 : skipWs (serObj (p :: ps) ++ '\x7d' :: rest) =
            serObj (p :: ps) ++ '\x7d' :: rest := by
          rw [ht1, List.cons_append]
          exact skipWs_not_ws '"' (by decide) _
        show (match parseMembers m (skipWs (serObj (p :: ps) ++ '\x7d' :: rest)) with
              | none => none
              | some (fs2, r5) => some ((k, v) :: fs2, r5)) = some ((k, v) :: p :: ps, rest)
        rw [hskip3, parse_serObj (p :: ps) hsr m rest (by simp) (by omega)]

end

lemma safeChar_quiet (c : Char) (h : safeChar c = true) :
    ¬ c = '\x27' ∧ ¬ c = '`' ∧ ¬ c = '\x7d' ∧ ¬ c = ':' := by
  unfold safeChar at h
  simp only [Bool.or_eq_true, Bool.and_eq_true, decide_eq_true_eq] at h
  rcases h with (((((((⟨h1, h2⟩ | ⟨h1, h2⟩) | ⟨h1, h2⟩) | rfl) | rfl) | rfl) | rfl) | rfl)
  all_goals refine ⟨?_, ?_, ?_, ?_⟩
  all_goals first
    | decide
    | omega
    | (intro he; subst he;
       first
         | exact absurd h1 (by decide)
         | exact absurd h2 (by decide))

mutual

/-- Characters of a safe serialization that never occur: the single quote and
the backtick. -/
theorem serVal_quiet (v : JVal) (hs : safeVal v = true) :
    ∀ c ∈ serVal v, ¬ c = '\x27' ∧ ¬ c = '`' := by
  cases v with
  | null => intro c hc; fin_cases hc <;> exact ⟨by decide, by decide⟩
  | bool b =>
    cases b with
    | true => intro c hc; fin_cases hc <;> exact ⟨by decide, by decide⟩
    | false => intro c hc; fin_cases hc <;> exact ⟨by decide, by decide⟩
  | num k => exact absurd hs (by simp [safeVal])
  | str s =>
    intro c hc
    have hc2 : c ∈ '"' :: (s.data ++ ['"']) := hc
    rcases List.mem_cons.mp hc2 with rfl | hm
    · exact ⟨by decide, by decide⟩
    rcases List.mem_append.mp hm with hm2 | hm2
    · have : safeChar c = true := by
        rw [safeVal] at hs
        unfold safeStrB at hs
        exact List.all_eq_true.mp hs c hm2
      exact ⟨(safeChar_quiet c this).1, (safeChar_quiet c this).2.1⟩
    · have : c = '"' := by simpa using hm2
      subst this
      exact ⟨by decide, by decide⟩
  | arr l =>
    intro c hc
    have hsarr : safeArr l = true := by rw [safeVal] at hs; exact hs
    have hc2 : c ∈ '[' :: (serArr l ++ [']']) := hc
    rcases List.mem_cons.mp hc2 with rfl | hm
    · exact ⟨by decide, by decide⟩
    rcases List.mem_append.mp hm with hm2 | hm2
    · exact serArr_quiet l hsarr c hm2
    · have : c = ']' := by simpa using hm2
      subst this
      exact ⟨by decide, by decide⟩
  | obj fs =>
    intro c hc
    have hsf : safeFields fs = true := by
      rw [safeVal] at hs
      simp only [Bool.and_eq_true] at hs
      exact hs.2
    have hc2 : c ∈ '\x7b' :: (serObj fs ++ ['\x7d']) := hc
    rcases List.mem_cons.mp hc2 with rfl | hm
    · exact ⟨by decide, by decide⟩
    rcases List.mem_append.mp hm with hm2 | hm2
    · exact serObj_quiet fs hsf c hm2
    · have : c = '\x7d' := by simpa using hm2
      subst this
      exact ⟨by decide, by decide⟩

theorem serArr_quiet (l : List JVal) (hs : safeArr l = true) :
    ∀ c ∈ serArr l, ¬ c = '\x27' ∧ ¬ c = '`' := by
  cases l with
  | nil => intro c hc; exact absurd hc (by simp [serArr])
  | cons v rest =>
    rw [safeArr] at hs
    simp only [Bool.and_eq_true] at hs
    obtain ⟨hsv, hsrest⟩ := hs
    cases rest with
    | nil =>
      intro c hc
      exact serVal_quiet v hsv c hc
    | cons w tl =>
      intro c hc
      have hc2 : c ∈ serVal v ++ ',' :: serArr (w :: tl) := hc
      rcases List.mem_append.mp hc2 with hm | hm
      · exact serVal_quiet v hsv c hm
      rcases List.mem_cons.mp hm with rfl | hm2
      · exact ⟨by decide, by decide⟩
      · exact serArr_quiet (w :: tl) hsrest c hm2

theorem serObj_quiet (fs : List (String × JVal)) (hs : safeFields fs = true) :
    ∀ c ∈ serObj fs, ¬ c = '\x27' ∧ ¬ c = '`' := by
  cases fs with
  | nil => intro c hc; exact absurd hc (by simp [serObj])
  | cons kv fs' =>
    rcases kv with ⟨k, v⟩
    rw [safeFields] at hs
    simp only [Bool.and_eq_true] at hs
    obtain ⟨⟨hkS, hsv⟩, hsr⟩ := hs
    have hkc : ∀ c ∈ k.data, ¬ c = '\x27' ∧ ¬ c = '`' := by
      intro c hc
      have : safeChar c = true := by
        unfold safeStrB at hkS
        exact List.all_eq_true.mp hkS c hc
      exact ⟨(safeChar_quiet c this).1, (safeChar_quiet c this).2.1⟩
    have hblock : ∀ c ∈ '"' :: (k.data ++ '"' :: ':' :: serVal v), ¬ c = '\x27' ∧ ¬ c = '`' := by
      intro c hc
      rcases List.mem_cons.mp hc with rfl | hm
      · exact ⟨by decide, by decide⟩
      rcases List.mem_append.mp hm with hm2 | hm2
      · exact hkc c hm2
      rcases List.mem_cons.mp hm2 with rfl | hm3
      · exact ⟨by decide, by decide⟩
      rcases List.mem_cons.mp hm3 with rfl | hm4
      · exact ⟨by decide, by decide⟩
      · exact serVal_quiet v hsv c hm4
    cases fs' with
    | nil => exact hblock
    | cons p ps =>
      intro c hc
      have hc2 : c ∈ ('"' :: (k.data ++ '"' :: ':' :: serVal v)) ++ ',' :: serObj (p :: ps) := hc
      rcases List.mem_append.mp hc2 with hm | hm
      · exact hblock c hm
      rcases List.mem_cons.mp hm with rfl | hm2
      · exact ⟨by decide, by decide⟩
      · exact serObj_quiet (p :: ps) hsr c hm2

end

/-- `.replace("'", '"')` is the identity on quote-free text. -/
lemma unswap_id (L : List Char) (h : ∀ c ∈ L, ¬ c = '\x27') : unswapQuotes L = L := by
  unfold unswapQuotes
  induction L with
  | nil => rfl
  | cons c rest ih =>
    rw [List.map_cons, if_neg (h c (List.mem_cons_self c rest)),
      ih (fun d hd => h d (List.mem_cons_of_mem c hd))]

/-- Undoing the quote swap on text that held no single quote. -/
lemma unswap_swap (L : List Char) (h : ∀ c ∈ L, ¬ c = '\x27') :
    unswapQuotes (swapQuotes L) = L := by
  unfold unswapQuotes swapQuotes
  rw [List.map_map]
  induction L with
  | nil => rfl
  | cons c rest ih =>
    rw [List.map_cons, ih (fun d hd => h d (List.mem_cons_of_mem c hd))]
    by_cases hc : c = '"'
    · subst hc
      rfl
    · have hc2 : ¬ c = '\x27' := h c (List.mem_cons_self c rest)
      show (if (if c = '"' then '\x27' else c) = '\x27' then '"' else
        (if c = '"' then '\x27' else c)) :: rest = c :: rest
      rw [if_neg hc, if_neg hc2]

/-- The first-brace-to-last-brace span extraction on a braced body with
brace-free junk around it. -/
lemma braceSpan_wrap (P M Q : List Char) (hP : ∀ c ∈ P, ¬ c = '\x7b')
    (hQ : ∀ c ∈ Q, ¬ c = '\x7d') :
    braceSpan (P ++ '\x7b' :: (M ++ '\x7d' :: Q)) = '\x7b' :: (M ++ ['\x7d']) := by
  have h1 : (P ++ '\x7b' :: (M ++ '\x7d' :: Q)).dropWhile (fun c => !(c = '\x7b')) =
      '\x7b' :: (M ++ '\x7d' :: Q) := by
    refine (span_append _ P ('\x7b' :: (M ++ '\x7d' :: Q)) ?_ ?_).2
    · intro c hc
      simp [hP c hc]
    · intro c hc
      simp only [List.head?_cons, Option.some.injEq] at hc
      subst hc
      simp
  have h2 : ('\x7b' :: (M ++ '\x7d' :: Q)).reverse =
      Q.reverse ++ '\x7d' :: (M.reverse ++ ['\x7b']) := by
    simp
  have h3 : (Q.reverse ++ '\x7d' :: (M.reverse ++ ['\x7b'])).dropWhile (fun c => !(c = '\x7d')) =
      '\x7d' :: (M.reverse ++ ['\x7b']) := by
    refine (span_append _ Q.reverse ('\x7d' :: (M.reverse ++ ['\x7b'])) ?_ ?_).2
    · intro c hc
      simp [hQ c (List.mem_reverse.mp hc)]
    · intro c hc
      simp only [List.head?_cons, Option.some.injEq] at hc
      subst hc
      simp
  have h4 : ('\x7d' :: (M.reverse ++ ['\x7b'])).reverse = '\x7b' :: (M ++ ['\x7d']) := by
    simp
  unfold braceSpan
  rw [h1]
  show (match (('\x7b' :: (M ++ '\x7d' :: Q)).reverse.dropWhile (fun c => !(c = '\x7d'))).reverse with
        | [] => P ++ '\x7b' :: (M ++ '\x7d' :: Q)
        | t => t) = '\x7b' :: (M ++ ['\x7d'])
  rw [h2, h3, h4]

/-- Special case: the span extraction fixes a braced text. -/
lemma braceSpan_closed (M : List Char) :
    braceSpan ('\x7b' :: (M ++ ['\x7d'])) = '\x7b' :: (M ++ ['\x7d']) := by
  have := braceSpan_wrap [] M [] (by simp) (by simp)
  rw [List.nil_append] at this
  exact this

/-- `json.loads` recovers every safe value from its canonical
serialization. -/
theorem json_loads_ser (v : JVal) (hs : safeVal v = true) :
    json_loads (String.mk (serVal v)) = some v := by
  obtain ⟨c, t, hct, hcw, _, _, _⟩ := serVal_head v hs
  show loadsChars (serVal v) = some v
  unfold loadsChars
  have hskip : skipWs (serVal v) = serVal v := by
    rw [hct]
    exact skipWs_not_ws c hcw t
  rw [hskip]
  have hp := parse_serVal v hs (2 * (serVal v).length + 2) [] (by simp only [List.length_nil]; omega)
  rw [List.append_nil] at hp
  rw [hp]
  rfl

/-- A text opening with `{` followed by a single quote is not valid JSON. -/
lemma loads_lbrace_squote (Y : List Char) : loadsChars ('\x7b' :: '\x27' :: Y) = none := rfl

/-- A text opening with a backtick is not valid JSON. -/
lemma loads_backtick (Y : List Char) : loadsChars ('`' :: Y) = none := rfl

/-- Continuation after a serialized fragment that cannot extend a bare-key
match of the quoting regex. -/
def keyBoundary (b : List Char) : Prop :=
  ∀ c, b.head? = some c → wordChar c = false ∧ pyWs c = false ∧ ¬ c = ':'

lemma keyBoundary_nil : keyBoundary [] := by
  intro c hc
  exact absurd hc (by simp)

lemma keyBoundary_cons (c : Char) (X : List Char) (h1 : wordChar c = false)
    (h2 : pyWs c = false) (h3 : ¬ c = ':') : keyBoundary (c :: X) := by
  intro d hd
  simp only [List.head?_cons, Option.some.injEq] at hd
  subst hd
  exact ⟨h1, h2, h3⟩

lemma pyWsDrop_cons_not (c : Char) (rest : List Char) (hp : pyWs c = false) :
    pyWsDrop (c :: rest) = c :: rest := by
  unfold pyWsDrop
  rw [List.dropWhile_cons, hp]
  simp

lemma tryKey_head_nonword (c : Char) (rest : List Char)
    (hw : wordChar c = false) (hp : pyWs c = false) : tryKey (c :: rest) = none := by
  show (if ((pyWsDrop (c :: rest)).takeWhile wordChar).isEmpty = true then none
        else match pyWsDrop ((pyWsDrop (c :: rest)).dropWhile wordChar) with
             | ':' :: r => some ((pyWsDrop (c :: rest)).takeWhile wordChar, r)
             | _ => none) = none
  rw [pyWsDrop_cons_not c rest hp]
  have h2 : (c :: rest).takeWhile wordChar = [] := by
    rw [List.takeWhile_cons, hw]
    simp
  rw [h2]
  rfl

lemma tryKey_word_block (c0 : Char) (W b : List Char)
    (hw : ∀ c ∈ c0 :: W, wordChar c = true ∧ pyWs c = false)
    (hb : keyBoundary b) : tryKey (c0 :: (W ++ b)) = none := by
  have hspan := span_append wordChar (c0 :: W) b (fun c hc => (hw c hc).1)
    (fun c hc => (hb c hc).1)
  rw [List.cons_append] at hspan
  have h1 : pyWsDrop (c0 :: (W ++ b)) = c0 :: (W ++ b) :=
    pyWsDrop_cons_not c0 _ (hw c0 (List.mem_cons_self c0 W)).2
  have h3 : pyWsDrop b = b := by
    cases b with
    | nil => rfl
    | cons c r => exact pyWsDrop_cons_not c r (hb c rfl).2.1
  show (if ((pyWsDrop (c0 :: (W ++ b))).takeWhile wordChar).isEmpty = true then none
        else match pyWsDrop ((pyWsDrop (c0 :: (W ++ b))).dropWhile wordChar) with
             | ':' :: r => some ((pyWsDrop (c0 :: (W ++ b))).takeWhile wordChar, r)
             | _ => none) = none
  rw [h1, hspan.1, hspan.2, h3]
  cases b with
  | nil => rfl
  | cons c r =>
    have hc : ¬ c = ':' := (hb c rfl).2.2
    show (match c :: r with
          | ':' :: r2 => some (c0 :: W, r2)
          | _ => none) = none
    split
    next heq => exact absurd (List.cons.inj heq).1 hc
    next => rfl

/-- The bare-key lookahead fails at the start of any safe serialized value
followed by a boundary. -/
lemma tryKey_serVal (v : JVal) (hs : safeVal v = true) (b : List Char)
    (hb : keyBoundary b) : tryKey (serVal v ++ b) = none := by
  cases v with
  | null => exact tryKey_word_block 'n' ['u', 'l', 'l'] b (by decide) hb
  | bool bb =>
    cases bb with
    | true => exact tryKey_word_block 't' ['r', 'u', 'e'] b (by decide) hb
    | false => exact tryKey_word_block 'f' ['a', 'l', 's', 'e'] b (by decide) hb
  | num k => exact absurd hs (by simp [safeVal])
  | str s =>
    show tryKey ('"' :: ((s.data ++ ['"']) ++ b)) = none
    exact tryKey_head_nonword '"' _ (by decide) (by decide)
  | arr l =>
    show tryKey ('[' :: ((serArr l ++ [']']) ++ b)) = none
    exact tryKey_head_nonword '[' _ (by decide) (by decide)
  | obj fs =>
    show tryKey ('\x7b' :: ((serObj fs ++ ['\x7d']) ++ b)) = none
    exact tryKey_head_nonword '\x7b' _ (by decide) (by decide)

/-- The bare-key lookahead fails at the start of a safe serialized element
list followed by a boundary. -/
lemma tryKey_serArr (l : List JVal) (hs : safeArr l = true) (hne : l ≠ [])
    (b : List Char) (hb : keyBoundary b) : tryKey (serArr l ++ b) = none := by
  cases l with
  | nil => exact absurd rfl hne
  | cons v tl =>
    rw [safeArr] at hs
    simp only [Bool.and_eq_true] at hs
    obtain ⟨hsv, hstl⟩ := hs
    cases tl with
    | nil => exact tryKey_serVal v hsv b hb
    | cons w r =>
      have hIn : serArr (v :: w :: r) ++ b = serVal v ++ (',' :: (serArr (w :: r) ++ b)) := by
        show (serVal v ++ ',' :: serArr (w :: r)) ++ b = _
        rw [List.append_assoc]
        rfl
      rw [hIn]
      exact tryKey_serVal v hsv _ (keyBoundary_cons ',' _ (by decide) (by decide) (by decide))

lemma qbkAux_cons_trigger (m : Nat) (c : Char) (rest : List Char)
    (hc : (c = '\x7b' || c = ',') = true) (htk : tryKey rest = none) :
    qbkAux (m + 1) (c :: rest) = c :: qbkAux m rest := by
  rw [qbkAux]
  simp only [hc, if_true]
  rw [htk]

lemma qbkAux_cons_pass (m : Nat) (c : Char) (rest : List Char)
    (hc : (c = '\x7b' || c = ',') = false) :
    qbkAux (m + 1) (c :: rest) = c :: qbkAux m rest := by
  rw [qbkAux]
  simp only [hc, Bool.false_eq_true, if_false]

lemma qbkAux_block : ∀ (W : List Char), (∀ c ∈ W, (c = '\x7b' || c = ',') = false) →
    ∀ (n : Nat) (b : List Char), qbkAux (n + W.length) (W ++ b) = W ++ qbkAux n b := by
  intro W
  induction W with
  | nil => intro _ n b; rfl
  | cons c W' ih =>
    intro hW n b
    show qbkAux ((n + W'.length) + 1) (c :: (W' ++ b)) = c :: (W' ++ qbkAux n b)
    rw [qbkAux_cons_pass _ c _ (hW c (List.mem_cons_self c W'))]
    rw [ih (fun d hd => hW d (List.mem_cons_of_mem c hd)) n b]

lemma safe_no_trigger (c : Char) (h : safeChar c = true) : (c = '\x7b' || c = ',') = false := by
  have f := safeChar_facts c h
  simp [f.2.2.2.1, f.2.2.2.2.1]

lemma str_block_no_trigger (s : String) (hs : safeStrB s = true) :
    ∀ c ∈ '"' :: (s.data ++ ['"']), (c = '\x7b' || c = ',') = false := by
  intro c hc
  rcases List.mem_cons.mp hc with rfl | hm
  · decide
  rcases List.mem_append.mp hm with hm2 | hm2
  · exact safe_no_trigger c (List.all_eq_true.mp (by unfold safeStrB at hs; exact hs) c hm2)
  · have : c = '"' := by simpa using hm2
    subst this
    decide

lemma key_block_no_trigger (k : String) (hk : safeStrB k = true) :
    ∀ c ∈ '"' :: (k.data ++ ['"', ':']), (c = '\x7b' || c = ',') = false := by
  intro c hc
  rcases List.mem_cons.mp hc with rfl | hm
  · decide
  rcases List.mem_append.mp hm with hm2 | hm2
  · exact safe_no_trigger c (List.all_eq_true.mp (by unfold safeStrB at hk; exact hk) c hm2)
  · rcases List.mem_cons.mp hm2 with rfl | hm3
    · decide
    · have : c = ':' := by simpa using hm3
      subst this
      decide

mutual

/-- The bare-key quoting pass leaves a safe serialized value unchanged,
consuming one unit of fuel per character. -/
theorem qbk_serVal (v : JVal) (hs : safeVal v = true) :
    ∀ (n : Nat) (b : List Char),
      qbkAux (n + (serVal v).length) (serVal v ++ b) = serVal v ++ qbkAux n b := by
  intro n b
  cases v with
  | null => exact qbkAux_block ['n', 'u', 'l', 'l'] (by decide) n b
  | bool bb =>
    cases bb with
    | true => exact qbkAux_block ['t', 'r', 'u', 'e'] (by decide) n b
    | false => exact qbkAux_block ['f', 'a', 'l', 's', 'e'] (by decide) n b
  | num k => exact absurd hs (by simp [safeVal])
  | str s =>
    have hsb : safeStrB s = true := by rw [safeVal] at hs; exact hs
    exact qbkAux_block ('"' :: (s.data ++ ['"'])) (str_block_no_trigger s hsb) n b
  | arr l =>
    cases l with
    | nil => exact qbkAux_block ['[', ']'] (by decide) n b
    | cons v' l'' =>
      have hsarr : safeArr (v' :: l'') = true := by rw [safeVal] at hs; exact hs
      have hL : (serVal (JVal.arr (v' :: l''))).length = (serArr (v' :: l'')).length + 2 := by
        show ('[' :: (serArr (v' :: l'') ++ [']'])).length = _
        simp only [List.length_cons, List.length_append, List.length_nil]
      have hsplit : ∀ X : List Char,
          serVal (JVal.arr (v' :: l'')) ++ X = '[' :: (serArr (v' :: l'') ++ (']' :: X)) := by
        intro X
        show ('[' :: (serArr (v' :: l'') ++ [']'])) ++ X = _
        rw [List.cons_append, List.append_assoc]
        rfl
      rw [hsplit b, hsplit (qbkAux n b)]
      rw [(by omega : n + (serVal (JVal.arr (v' :: l''))).length =
          ((n + 1) + (serArr (v' :: l'')).length) + 1)]
      rw [qbkAux_cons_pass _ '[' _ (by decide)]
      rw [qbk_serArr (v' :: l'') hsarr (by simp) (n + 1) (']' :: b)
        (keyBoundary_cons ']' b (by decide) (by decide) (by decide))]
      rw [qbkAux_cons_pass n ']' b (by decide)]
  | obj fs =>
    cases fs with
    | nil =>
      show qbkAux ((n + 1) + 1) ('\x7b' :: ('\x7d' :: b)) = '\x7b' :: ('\x7d' :: qbkAux n b)
      rw [qbkAux_cons_trigger (n + 1) '\x7b' _ (by decide)
        (tryKey_head_nonword '\x7d' b (by decide) (by decide))]
      rw [qbkAux_cons_pass n '\x7d' b (by decide)]
    | cons kv fs' =>
      rw [safeVal] at hs
      simp only [Bool.and_eq_true] at hs
      obtain ⟨hdk, hsf⟩ := hs
      have hL : (serVal (JVal.obj (kv :: fs'))).length = (serObj (kv :: fs')).length + 2 := by
        show ('\x7b' :: (serObj (kv :: fs') ++ ['\x7d'])).length = _
        simp only [List.length_cons, List.length_append, List.length_nil]
      have hsplit : ∀ X : List Char,
          serVal (JVal.obj (kv :: fs')) ++ X = '\x7b' :: (serObj (kv :: fs') ++ ('\x7d' :: X)) := by
        intro X
        show ('\x7b' :: (serObj (kv :: fs') ++ ['\x7d'])) ++ X = _
        rw [List.cons_append, List.append_assoc]
        rfl
      obtain ⟨t0, ht0⟩ := serObj_head (kv :: fs') (by simp)
      have htk : tryKey (serObj (kv :: fs') ++ ('\x7d' :: b)) = none := by
        rw [ht0, List.cons_append]
        exact tryKey_head_nonword '"' _ (by decide) (by decide)
      rw [hsplit b, hsplit (qbkAux n b)]
      rw [(by omega : n + (serVal (JVal.obj (kv :: fs'))).length =
          ((n + 1) + (serObj (kv :: fs')).length) + 1)]
      rw [qbkAux_cons_trigger _ '\x7b' _ (by decide) htk]
      rw [qbk_serObj (kv :: fs') hsf (by simp) (n + 1) ('\x7d' :: b)
        (keyBoundary_cons '\x7d' b (by decide) (by decide) (by decide))]
      rw [qbkAux_cons_pass n '\x7d' b (by decide)]

/-- The bare-key quoting pass leaves a safe serialized element list unchanged
up to a boundary. -/
theorem qbk_serArr (l : List JVal) (hs : safeArr l = true) (hne : l ≠ []) :
    ∀ (n : Nat) (b : List Char), keyBoundary b →
      qbkAux (n + (serArr l).length) (serArr l ++ b) = serArr l ++ qbkAux n b := by
  intro n b hb
  cases l with
  | nil => exact absurd rfl hne
  | cons v' tl =>
    rw [safeArr] at hs
    simp only [Bool.and_eq_true] at hs
    obtain ⟨hsv, hstl⟩ := hs
    cases tl with
    | nil => exact qbk_serVal v' hsv n b
    | cons w r =>
      have hA : (serArr (v' :: w :: r)).length =
          (serVal v').length + 1 + (serArr (w :: r)).length := by
        show (serVal v' ++ ',' :: serArr (w :: r)).length = _
        simp only [List.length_append, List.length_cons]
        omega
      have hsplit : ∀ X : List Char,
          serArr (v' :: w :: r) ++ X = serVal v' ++ (',' :: (serArr (w :: r) ++ X)) := by
        intro X
        show (serVal v' ++ ',' :: serArr (w :: r)) ++ X = _
        rw [List.append_assoc]
        rfl
      have htk : tryKey (serArr (w :: r) ++ b) = none :=
        tryKey_serArr (w :: r) hstl (by simp) b hb
      rw [hsplit b, hsplit (qbkAux n b)]
      rw [(by omega : n + (serArr (v' :: w :: r)).length =
          (((n + (serArr (w :: r)).length) + 1) + (serVal v').length))]
      rw [qbk_serVal v' hsv ((n + (serArr (w :: r)).length) + 1) (',' :: (serArr (w :: r) ++ b))]
      rw [qbkAux_cons_trigger (n + (serArr (w :: r)).length) ',' _ (by decide) htk]
      rw [qbk_serArr (w :: r) hstl (by simp) n b hb]

/-- The bare-key quoting pass leaves a safe serialized member list unchanged
up to a boundary. -/
theorem qbk_serObj (fs : List (String × JVal)) (hs : safeFields fs = true) (hne : fs ≠ []) :
    ∀ (n : Nat) (b : List Char), keyBoundary b →
      qbkAux (n + (serObj fs).length) (serObj fs ++ b) = serObj fs ++ qbkAux n b := by
  intro n b hb
  cases fs with
  | nil => exact absurd rfl hne
  | cons kv fs' =>
    rcases kv with ⟨k, v⟩
    rw [safeFields] at hs
    simp only [Bool.and_eq_true] at hs
    obtain ⟨⟨hkS, hsv⟩, hsr⟩ := hs
    have hWlen : ('"' :: (k.data ++ ['"', ':'])).length = k.data.length + 3 := by
      simp only [List.length_cons, List.length_append, List.length_nil]
    cases fs' with
    | nil =>
      have hO : (serObj [(k, v)]).length = k.data.length + 3 + (serVal v).length := by
        show ('"' :: (k.data ++ '"' :: ':' :: serVal v)).length = _
        simp only [List.length_cons, List.length_append]
        omega
      have hsplit : ∀ X : List Char, serObj [(k, v)] ++ X =
          ('"' :: (k.data ++ ['"', ':'])) ++ (serVal v ++ X) := by
        intro X
        show ('"' :: (k.data ++ '"' :: ':' :: serVal v)) ++ X = _
        simp
      rw [hsplit b, hsplit (qbkAux n b)]
      rw [(by omega : n + (serObj [(k, v)]).length =
          (n + (serVal v).length) + ('"' :: (k.data ++ ['"', ':'])).length)]
      rw [qbkAux_block ('"' :: (k.data ++ ['"', ':'])) (key_block_no_trigger k hkS)
        (n + (serVal v).length) (serVal v ++ b)]
      rw [qbk_serVal v hsv n b]
    | cons p ps =>
      have hO : (serObj ((k, v) :: p :: ps)).length =
          k.data.length + 3 + (serVal v).length + 1 + (serObj (p :: ps)).length := by
        show (('"' :: (k.data ++ '"' :: ':' :: serVal v)) ++ ',' :: serObj (p :: ps)).length = _
        simp only [List.length_cons, List.length_append]
        omega
      have hsplit : ∀ X : List Char, serObj ((k, v) :: p :: ps) ++ X =
          ('"' :: (k.data ++ ['"', ':'])) ++
            (serVal v ++ (',' :: (serObj (p :: ps) ++ X))) := by
        intro X
        show (('"' :: (k.data ++ '"' :: ':' :: serVal v)) ++ ',' :: serObj (p :: ps)) ++ X = _
        simp
      obtain ⟨t1, ht1⟩ := serObj_head (p :: ps) (by simp)
      have htk : tryKey (serObj (p :: ps) ++ b) = none := by
        rw [ht1, List.cons_append]
        exact tryKey_head_nonword '"' _ (by decide) (by decide)
      rw [hsplit b, hsplit (qbkAux n b)]
      rw [(by omega : n + (serObj ((k, v) :: p :: ps)).length =
          ((((n + (serObj (p :: ps)).length) + 1) + (serVal v).length) +
            ('"' :: (k.data ++ ['"', ':'])).length))]
      rw [qbkAux_block ('"' :: (k.data ++ ['"', ':'])) (key_block_no_trigger k hkS)
        (((n + (serObj (p :: ps)).length) + 1) + (serVal v).length)
        (serVal v ++ (',' :: (serObj (p :: ps) ++ b)))]
      rw [qbk_serVal v hsv ((n + (serObj (p :: ps)).length) + 1)
        (',' :: (serObj (p :: ps) ++ b))]
      rw [qbkAux_cons_trigger (n + (serObj (p :: ps)).length) ',' _ (by decide) htk]
      rw [qbk_serObj (p :: ps) hsr (by simp) n b hb]

end

/-- Step 3 of the cleaner is the identity on a safe serialized value. -/
lemma quoteBareKeys_serVal (v : JVal) (hs : safeVal v = true) :
    quoteBareKeys (serVal v) = serVal v := by
  unfold quoteBareKeys
  have h := qbk_serVal v hs 0 []
  have h0 : qbkAux 0 ([] : List Char) = [] := rfl
  rw [List.append_nil, h0, List.append_nil, Nat.zero_add] at h
  exact h

lemma tryClose_head (c : Char) (rest : List Char) (hp : pyWs c = false)
    (h1 : ¬ c = '\x7d') (h2 : ¬ c = ']') : tryCloseBracket (c :: rest) = none := by
  unfold tryCloseBracket
  rw [pyWsDrop_cons_not c rest hp]
  split
  next heq => exact absurd (List.cons.inj heq).1 h1
  next heq => exact absurd (List.cons.inj heq).1 h2
  next => rfl

lemma dtcAux_cons_comma (m : Nat) (rest : List Char)
    (htc : tryCloseBracket rest = none) :
    dtcAux (m + 1) (',' :: rest) = ',' :: dtcAux m rest := by
  rw [dtcAux, if_pos rfl, htc]

lemma dtcAux_cons_pass (m : Nat) (c : Char) (rest : List Char) (hc : ¬ c = ',') :
    dtcAux (m + 1) (c :: rest) = c :: dtcAux m rest := by
  rw [dtcAux, if_neg hc]

lemma dtcAux_block : ∀ (W : List Char), (∀ c ∈ W, ¬ c = ',') →
    ∀ (n : Nat) (b : List Char), dtcAux (n + W.length) (W ++ b) = W ++ dtcAux n b := by
  intro W
  induction W with
  | nil => intro _ n b; rfl
  | cons c W' ih =>
    intro hW n b
    show dtcAux ((n + W'.length) + 1) (c :: (W' ++ b)) = c :: (W' ++ dtcAux n b)
    rw [dtcAux_cons_pass _ c _ (hW c (List.mem_cons_self c W'))]
    rw [ih (fun d hd => hW d (List.mem_cons_of_mem c hd)) n b]

/-- The trailing-comma lookahead fails at the start of any safe serialized
value. -/
lemma tryClose_serVal (v : JVal) (hs : safeVal v = true) (b : List Char) :
    tryCloseBracket (serVal v ++ b) = none := by
  obtain ⟨c, t, hct, _, hpw, hbr1, hbr2⟩ := serVal_head v hs
  rw [hct, List.cons_append]
  exact tryClose_head c _ hpw hbr2 hbr1

lemma tryClose_serArr (l : List JVal) (hs : safeArr l = true) (hne : l ≠ [])
    (b : List Char) : tryCloseBracket (serArr l ++ b) = none := by
  obtain ⟨c, t, hct, _, hpw, hbr1, hbr2⟩ := serArr_head l hs hne
  rw [hct, List.cons_append]
  exact tryClose_head c _ hpw hbr2 hbr1

lemma tryClose_serObj (fs : List (String × JVal)) (hne : fs ≠ []) (b : List Char) :
    tryCloseBracket (serObj fs ++ b) = none := by
  obtain ⟨t0, ht0⟩ := serObj_head fs hne
  rw [ht0, List.cons_append]
  exact tryClose_head '"' _ (by decide) (by decide) (by decide)

lemma safe_no_comma (c : Char) (h : safeChar c = true) : ¬ c = ',' :=
  (safeChar_facts c h).2.2.2.1

lemma str_block_no_comma (s : String) (hs : safeStrB s = true) :
    ∀ c ∈ '"' :: (s.data ++ ['"']), ¬ c = ',' := by
  intro c hc
  rcases List.mem_cons.mp hc with rfl | hm
  · decide
  rcases List.mem_append.mp hm with hm2 | hm2
  · exact safe_no_comma c (List.all_eq_true.mp (by unfold safeStrB at hs; exact hs) c hm2)
  · have : c = '"' := by simpa using hm2
    subst this
    decide

lemma key_block_no_comma (k : String) (hk : safeStrB k = true) :
    ∀ c ∈ '"' :: (k.data ++ ['"', ':']), ¬ c = ',' := by
  intro c hc
  rcases List.mem_cons.mp hc with rfl | hm
  · decide
  rcases List.mem_append.mp hm with hm2 | hm2
  · exact safe_no_comma c (List.all_eq_true.mp (by unfold safeStrB at hk; exact hk) c hm2)
  · rcases List.mem_cons.mp hm2 with rfl | hm3
    · decide
    · have : c = ':' := by simpa using hm3
      subst this
      decide

mutual

/-- The trailing-comma removal pass leaves a safe serialized value
unchanged. -/
theorem dtc_serVal (v : JVal) (hs : safeVal v = true) :
    ∀ (n : Nat) (b : List Char),
      dtcAux (n + (serVal v).length) (serVal v ++ b) = serVal v ++ dtcAux n b := by
  intro n b
  cases v with
  | null => exact dtcAux_block ['n', 'u', 'l', 'l'] (by decide) n b
  | bool bb =>
    cases bb with
    | true => exact dtcAux_block ['t', 'r', 'u', 'e'] (by decide) n b
    | false => exact dtcAux_block ['f', 'a', 'l', 's', 'e'] (by decide) n b
  | num k => exact absurd hs (by simp [safeVal])
  | str s =>
    have hsb : safeStrB s = true := by rw [safeVal] at hs; exact hs
    exact dtcAux_block ('"' :: (s.data ++ ['"'])) (str_block_no_comma s hsb) n b
  | arr l =>
    cases l with
    | nil => exact dtcAux_block ['[', ']'] (by decide) n b
    | cons v' l'' =>
      have hsarr : safeArr (v' :: l'') = true := by rw [safeVal] at hs; exact hs
      have hL : (serVal (JVal.arr (v' :: l''))).length = (serArr (v' :: l'')).length + 2 := by
        show ('[' :: (serArr (v' :: l'') ++ [']'])).length = _
        simp only [List.length_cons, List.length_append, List.length_nil]
      have hsplit : ∀ X : List Char,
          serVal (JVal.arr (v' :: l'')) ++ X = '[' :: (serArr (v' :: l'') ++ (']' :: X)) := by
        intro X
        show ('[' :: (serArr (v' :: l'') ++ [']'])) ++ X = _
        rw [List.cons_append, List.append_assoc]
        rfl
      rw [hsplit b, hsplit (dtcAux n b)]
      rw [(by omega : n + (serVal (JVal.arr (v' :: l''))).length =
          ((n + 1) + (serArr (v' :: l'')).length) + 1)]
      rw [dtcAux_cons_pass _ '[' _ (by decide)]
      rw [dtc_serArr (v' :: l'') hsarr (by simp) (n + 1) (']' :: b)]
      rw [dtcAux_cons_pass n ']' b (by decide)]
  | obj fs =>
    cases fs with
    | nil =>
      show dtcAux ((n + 1) + 1) ('\x7b' :: ('\x7d' :: b)) = '\x7b' :: ('\x7d' :: dtcAux n b)
      rw [dtcAux_cons_pass (n + 1) '\x7b' _ (by decide)]
      rw [dtcAux_cons_pass n '\x7d' b (by decide)]
    | cons kv fs' =>
      rw [safeVal] at hs
      simp only [Bool.and_eq_true] at hs
      obtain ⟨hdk, hsf⟩ := hs
      have hL : (serVal (JVal.obj (kv :: fs'))).length = (serObj (kv :: fs')).length + 2 := by
        show ('\x7b' :: (serObj (kv :: fs') ++ ['\x7d'])).length = _
        simp only [List.length_cons, List.length_append, List.length_nil]
      have hsplit : ∀ X : List Char,
          serVal (JVal.obj (kv :: fs')) ++ X = '\x7b' :: (serObj (kv :: fs') ++ ('\x7d' :: X)) := by
        intro X
        show ('\x7b' :: (serObj (kv :: fs') ++ ['\x7d'])) ++ X = _
        rw [List.cons_append, List.append_assoc]
        rfl
      rw [hsplit b, hsplit (dtcAux n b)]
      rw [(by omega : n + (serVal (JVal.obj (kv :: fs'))).length =
          ((n + 1) + (serObj (kv :: fs')).length) + 1)]
      rw [dtcAux_cons_pass _ '\x7b' _ (by decide)]
      rw [dtc_serObj (kv :: fs') hsf (by simp) (n + 1) ('\x7d' :: b)]
      rw [dtcAux_cons_pass n '\x7d' b (by decide)]

theorem dtc_serArr (l : List JVal) (hs : safeArr l = true) (hne : l ≠ []) :
    ∀ (n : Nat) (b : List Char),
      dtcAux (n + (serArr l).length) (serArr l ++ b) = serArr l ++ dtcAux n b := by
  intro n b
  cases l with
  | nil => exact absurd rfl hne
  | cons v' tl =>
    rw [safeArr] at hs
    simp only [Bool.and_eq_true] at hs
    obtain ⟨hsv, hstl⟩ := hs
    cases tl with
    | nil => exact dtc_serVal v' hsv n b
    | cons w r =>
      have hA : (serArr (v' :: w :: r)).length =
          (serVal v').length + 1 + (serArr (w :: r)).length := by
        show (serVal v' ++ ',' :: serArr (w :: r)).length = _
        simp only [List.length_append, List.length_cons]
        omega
      have hsplit : ∀ X : List Char,
          serArr (v' :: w :: r) ++ X = serVal v' ++ (',' :: (serArr (w :: r) ++ X)) := by
        intro X
        show (serVal v' ++ ',' :: serArr (w :: r)) ++ X = _
        rw [List.append_assoc]
        rfl
      have htc : tryCloseBracket (serArr (w :: r) ++ b) = none :=
        tryClose_serArr (w :: r) hstl (by simp) b
      rw [hsplit b, hsplit (dtcAux n b)]
      rw [(by omega : n + (serArr (v' :: w :: r)).length =
          (((n + (serArr (w :: r)).length) + 1) + (serVal v').length))]
      rw [dtc_serVal v' hsv ((n + (serArr (w :: r)).length) + 1) (',' :: (serArr (w :: r) ++ b))]
      rw [dtcAux_cons_comma (n + (serArr (w :: r)).length) _ htc]
      rw [dtc_serArr (w :: r) hstl (by simp) n b]

theorem dtc_serObj (fs : List (String × JVal)) (hs : safeFields fs = true) (hne : fs ≠ []) :
    ∀ (n : Nat) (b : List Char),
      dtcAux (n + (serObj fs).length) (serObj fs ++ b) = serObj fs ++ dtcAux n b := by
  intro n b
  cases fs with
  | nil => exact absurd rfl hne
  | cons kv fs' =>
    rcases kv with ⟨k, v⟩
    rw [safeFields] at hs
    simp only [Bool.and_eq_true] at hs
    obtain ⟨⟨hkS, hsv⟩, hsr⟩ := hs
    have hWlen : ('"' :: (k.data ++ ['"', ':'])).length = k.data.length + 3 := by
      simp only [List.length_cons, List.length_append, List.length_nil]
    cases fs' with
    | nil =>
      have hO : (serObj [(k, v)]).length = k.data.length + 3 + (serVal v).length := by
        show ('"' :: (k.data ++ '"' :: ':' :: serVal v)).length = _
        simp only [List.length_cons, List.length_append]
        omega
      have hsplit : ∀ X : List Char, serObj [(k, v)] ++ X =
          ('"' :: (k.data ++ ['"', ':'])) ++ (serVal v ++ X) := by
        intro X
        show ('"' :: (k.data ++ '"' :: ':' :: serVal v)) ++ X = _
        simp
      rw [hsplit b, hsplit (dtcAux n b)]
      rw [(by omega : n + (serObj [(k, v)]).length =
          (n + (serVal v).length) + ('"' :: (k.data ++ ['"', ':'])).length)]
      rw [dtcAux_block ('"' :: (k.data ++ ['"', ':'])) (key_block_no_comma k hkS)
        (n + (serVal v).length) (serVal v ++ b)]
      rw [dtc_serVal v hsv n b]
    | cons p ps =>
      have hO : (serObj ((k, v) :: p :: ps)).length =
          k.data.length + 3 + (serVal v).length + 1 + (serObj (p :: ps)).length := by
        show (('"' :: (k.data ++ '"' :: ':' :: serVal v)) ++ ',' :: serObj (p :: ps)).length = _
        simp only [List.length_cons, List.length_append]
        omega
      have hsplit : ∀ X : List Char, serObj ((k, v) :: p :: ps) ++ X =
          ('"' :: (k.data ++ ['"', ':'])) ++
            (serVal v ++ (',' :: (serObj (p :: ps) ++ X))) := by
        intro X
        show (('"' :: (k.data ++ '"' :: ':' :: serVal v)) ++ ',' :: serObj (p :: ps)) ++ X = _
        simp
      have htc : tryCloseBracket (serObj (p :: ps) ++ b) = none :=
        tryClose_serObj (p :: ps) (by simp) b
      rw [hsplit b, hsplit (dtcAux n b)]
      rw [(by omega : n + (serObj ((k, v) :: p :: ps)).length =
          ((((n + (serObj (p :: ps)).length) + 1) + (serVal v).length) +
            ('"' :: (k.data ++ ['"', ':'])).length))]
      rw [dtcAux_block ('"' :: (k.data ++ ['"', ':'])) (key_block_no_comma k hkS)
        (((n + (serObj (p :: ps)).length) + 1) + (serVal v).length)
        (serVal v ++ (',' :: (serObj (p :: ps) ++ b)))]
      rw [dtc_serVal v hsv ((n + (serObj (p :: ps)).length) + 1)
        (',' :: (serObj (p :: ps) ++ b))]
      rw [dtcAux_cons_comma (n + (serObj (p :: ps)).length) _ htc]
      rw [dtc_serObj (p :: ps) hsr (by simp) n b]

end

/-- Step 4 of the cleaner is the identity on a safe serialized value. -/
lemma dropTrailingCommas_serVal (v : JVal) (hs : safeVal v = true) :
    dropTrailingCommas (serVal v) = serVal v := by
  unfold dropTrailingCommas
  have h := dtc_serVal v hs 0 []
  have h0 : dtcAux 0 ([] : List Char) = [] := rfl
  rw [List.append_nil, h0, List.append_nil, Nat.zero_add] at h
  exact h

/-!
## Claim C6 — single-quote swap and its repair
-/

lemma swap_serObjVal (fs : List (String × JVal)) :
    swapQuotes (serVal (JVal.obj fs)) = '\x7b' :: (swapQuotes (serObj fs) ++ ['\x7d']) := by
  show swapQuotes ('\x7b' :: (serObj fs ++ ['\x7d'])) = _
  unfold swapQuotes
  rw [List.map_cons, List.map_append]
  rfl

/-- C6 counterexample: a valid object whose string value holds an apostrophe
parses as-is, but after the quote swap the repair chain recovers nothing. -/
theorem c6_counterexample :
    json_loads "\x7b\"a\": \"b\x27c\"\x7d" = some (.obj [("a", .str "b\x27c")]) ∧
    validate_and_clean_json (String.mk (swapQuotes ("\x7b\"a\": \"b\x27c\"\x7d").data)) =
      none :=
  ⟨rfl, rfl⟩

/-- C6 (amended): for safe objects — no quote of either kind, no brace,
bracket, comma or colon inside keys or string values, no numbers — the repair
chain recovers the exact value from the quote-swapped serialization. -/
theorem c6_amended_quote_swap_recovery (fs : List (String × JVal))
    (hs : safeVal (JVal.obj fs) = true) :
    validate_and_clean_json (String.mk (swapQuotes (serVal (JVal.obj fs)))) =
      some (JVal.obj fs) := by
  cases fs with
  | nil => rfl
  | cons kv fs' =>
    have e0 := swap_serObjVal (kv :: fs')
    obtain ⟨t0, ht0⟩ := serObj_head (kv :: fs') (by simp)
    have hsw2 : swapQuotes (serObj (kv :: fs')) = '\x27' :: swapQuotes t0 := by
      rw [ht0]
      rfl
    have e1 : braceSpan (swapQuotes (serVal (JVal.obj (kv :: fs')))) =
        swapQuotes (serVal (JVal.obj (kv :: fs'))) := by
      rw [e0]
      exact braceSpan_closed _
    have e2 : unswapQuotes (swapQuotes (serVal (JVal.obj (kv :: fs')))) =
        serVal (JVal.obj (kv :: fs')) :=
      unswap_swap _ (fun c hc => (serVal_quiet (JVal.obj (kv :: fs')) hs c hc).1)
    have e3 := quoteBareKeys_serVal (JVal.obj (kv :: fs')) hs
    have e4 := dropTrailingCommas_serVal (JVal.obj (kv :: fs')) hs
    have e5 : braceSpan (serVal (JVal.obj (kv :: fs'))) = serVal (JVal.obj (kv :: fs')) :=
      braceSpan_closed (serObj (kv :: fs'))
    have hclean : clean_json_text (String.mk (swapQuotes (serVal (JVal.obj (kv :: fs'))))) =
        String.mk (serVal (JVal.obj (kv :: fs'))) := by
      show String.mk (braceSpan (dropTrailingCommas (quoteBareKeys (unswapQuotes
        (braceSpan (swapQuotes (serVal (JVal.obj (kv :: fs'))))))))) = _
      rw [e1, e2, e3, e4, e5]
    have h1 : json_loads (String.mk (swapQuotes (serVal (JVal.obj (kv :: fs'))))) = none := by
      show loadsChars (swapQuotes (serVal (JVal.obj (kv :: fs')))) = none
      rw [e0, hsw2, List.cons_append]
      exact loads_lbrace_squote _
    have hne2 : (String.mk (swapQuotes (serVal (JVal.obj (kv :: fs'))))).data.isEmpty = false := by
      show (swapQuotes (serVal (JVal.obj (kv :: fs')))).isEmpty = false
      rw [e0]
      rfl
    have h2 : json_loads (clean_json_text (String.mk (swapQuotes
        (serVal (JVal.obj (kv :: fs')))))) = some (JVal.obj (kv :: fs')) := by
      rw [hclean]
      exact json_loads_ser (JVal.obj (kv :: fs')) hs
    unfold validate_and_clean_json repairResult
    simp only [hne2, Bool.false_eq_true, if_false]
    rw [h1, h2]

/-- Closed instance of the amended C6 claim. -/
theorem c6_amended_witness :
    safeVal (JVal.obj [("a", JVal.str "b c")]) = true ∧
    validate_and_clean_json (String.mk (swapQuotes (serVal (JVal.obj [("a", JVal.str "b c")])))) =
      some (JVal.obj [("a", JVal.str "b c")]) :=
  ⟨by decide, c6_amended_quote_swap_recovery [("a", JVal.str "b c")] (by decide)⟩

/-!
## Claim C7 — markdown-fence extraction
-/

/-- The fenced-response shape of the claim: the serialized object inside a
triple-backtick fence with a `json` tag. -/
def fenceWrap (s : String) : String := "```json\n" ++ s ++ "\n```"

lemma findCloseFence_cons_other (c : Char) (hc : ¬ c = '`') (l : List Char) :
    findCloseFence (c :: l) =
      (match findCloseFence l with
       | none => none
       | some (content, after) => some (c :: content, after)) := by
  rw [findCloseFence.eq_def]
  split
  next heq => exact absurd (List.cons.inj heq).1 hc
  next c2 l2 heq =>
    obtain ⟨hc2, hl2⟩ := List.cons.inj heq
    subst hc2
    subst hl2
    rfl
  next heq => exact absurd heq (by simp)

lemma findCloseFence_no_bt :
    ∀ (C : List Char), (∀ c ∈ C, ¬ c = '`') → ∀ (after : List Char),
      findCloseFence (C ++ '`' :: '`' :: '`' :: after) = some (C, after) := by
  intro C
  induction C with
  | nil => intro _ after; rfl
  | cons c C' ih =>
    intro hC after
    rw [List.cons_append,
      findCloseFence_cons_other c (hC c (List.mem_cons_self c C')) _,
      ih (fun d hd => hC d (List.mem_cons_of_mem c hd)) after]

lemma fenceAux_nil (n : Nat) : fenceAux n [] = [] := by
  cases n with
  | zero => rfl
  | succ m => rfl

/-- The fence scanner on a tagged fenced block whose content has no backtick:
one capture, the content together with its trailing newline. -/
lemma fenceBlocks_wrap (C : List Char) (hC : ∀ c ∈ C, ¬ c = '`')
    (hhead : ∃ c t, C = c :: t ∧ pyWs c = false) :
    fenceBlocks ('`' :: '`' :: '`' :: 'j' :: 's' :: 'o' :: 'n' :: '\n' ::
      (C ++ ('\n' :: '`' :: '`' :: '`' :: []))) = [C ++ ['\n']] := by
  obtain ⟨c0, t0, rfl, hws⟩ := hhead
  have hpd : pyWsDrop ('\n' :: ((c0 :: t0) ++ ('\n' :: '`' :: '`' :: '`' :: []))) =
      c0 :: (t0 ++ ('\n' :: '`' :: '`' :: '`' :: [])) := by
    unfold pyWsDrop
    rw [List.cons_append, List.dropWhile_cons]
    have h1 : pyWs '\n' = true := by decide
    rw [h1]
    simp only [eq_self_iff_true, if_true]
    rw [List.dropWhile_cons, hws]
    simp
  have hsp : c0 :: (t0 ++ ('\n' :: '`' :: '`' :: '`' :: [])) =
      ((c0 :: t0) ++ ['\n']) ++ ('`' :: '`' :: '`' :: []) := by
    rw [List.append_assoc]
    rfl
  have hC2 : ∀ c ∈ (c0 :: t0) ++ ['\n'], ¬ c = '`' := by
    intro c hc
    rcases List.mem_append.mp hc with hm | hm
    · exact hC c hm
    · have : c = '\n' := by simpa using hm
      subst this
      decide
  show (match findCloseFence (pyWsDrop ('\n' :: ((c0 :: t0) ++
          ('\n' :: '`' :: '`' :: '`' :: [])))) with
        | some p => p.1 :: fenceAux (((c0 :: t0) ++ ('\n' :: '`' :: '`' :: '`' :: [])).length + 7) p.2
        | none => []) = [(c0 :: t0) ++ ['\n']]
  rw [hpd, hsp, findCloseFence_no_bt ((c0 :: t0) ++ ['\n']) hC2 []]
  show ((c0 :: t0) ++ ['\n']) ::
      fenceAux (((c0 :: t0) ++ ('\n' :: '`' :: '`' :: '`' :: [])).length + 7) [] =
    [(c0 :: t0) ++ ['\n']]
  rw [fenceAux_nil]

/-- C7 (amended): a fenced safe object is recovered by the repair chain, but
by the normalization stage (the brace-span extraction), which runs before
fence extraction; the fence scanner itself captures exactly the fenced
content, which parses strictly, and the fence stage returns a parsed block
only when both earlier stages fail. -/
theorem c7_amended_fence_extraction :
    (∀ (fs : List (String × JVal)), safeVal (JVal.obj fs) = true →
      validate_and_clean_json (fenceWrap (String.mk (serVal (JVal.obj fs)))) =
        some (JVal.obj fs) ∧
      fenceBlocks (fenceWrap (String.mk (serVal (JVal.obj fs)))).data =
        [serVal (JVal.obj fs) ++ ['\n']] ∧
      loadsChars (serVal (JVal.obj fs) ++ ['\n']) = some (JVal.obj fs)) ∧
    (∀ (t : String) (v : JVal), t.data.isEmpty = false → json_loads t = none →
      json_loads (clean_json_text t) = none →
      firstParsedFence (fenceBlocks t.data) = some v →
      validate_and_clean_json t = some v) := by
  constructor
  · intro fs hs
    have hdata : (fenceWrap (String.mk (serVal (JVal.obj fs)))).data =
        '`' :: '`' :: '`' :: 'j' :: 's' :: 'o' :: 'n' :: '\n' ::
          (serVal (JVal.obj fs) ++ ('\n' :: '`' :: '`' :: '`' :: [])) := rfl
    have hbrace : braceSpan ((fenceWrap (String.mk (serVal (JVal.obj fs)))).data) =
        serVal (JVal.obj fs) := by
      rw [hdata]
      have hsp2 : serVal (JVal.obj fs) ++ ('\n' :: '`' :: '`' :: '`' :: []) =
          '\x7b' :: (serObj fs ++ '\x7d' :: ('\n' :: '`' :: '`' :: '`' :: [])) := by
        show ('\x7b' :: (serObj fs ++ ['\x7d'])) ++ _ = _
        rw [List.cons_append, List.append_assoc]
        rfl
      rw [hsp2]
      exact braceSpan_wrap ['`', '`', '`', 'j', 's', 'o', 'n', '\n'] (serObj fs)
        ('\n' :: '`' :: '`' :: '`' :: []) (by decide) (by decide)
    have e2 : unswapQuotes (serVal (JVal.obj fs)) = serVal (JVal.obj fs) :=
      unswap_id _ (fun c hc => (serVal_quiet (JVal.obj fs) hs c hc).1)
    have e3 := quoteBareKeys_serVal (JVal.obj fs) hs
    have e4 := dropTrailingCommas_serVal (JVal.obj fs) hs
    have e5 : braceSpan (serVal (JVal.obj fs)) = serVal (JVal.obj fs) :=
      braceSpan_closed (serObj fs)
    have hclean : clean_json_text (fenceWrap (String.mk (serVal (JVal.obj fs)))) =
        String.mk (serVal (JVal.obj fs)) := by
      show String.mk (braceSpan (dropTrailingCommas (quoteBareKeys (unswapQuotes
        (braceSpan ((fenceWrap (String.mk (serVal (JVal.obj fs)))).data)))))) = _
      rw [hbrace, e2, e3, e4, e5]
    have h0 : (fenceWrap (String.mk (serVal (JVal.obj fs)))).data.isEmpty = false := by
      rw [hdata]
      rfl
    have h1 : json_loads (fenceWrap (String.mk (serVal (JVal.obj fs)))) = none := by
      show loadsChars ((fenceWrap (String.mk (serVal (JVal.obj fs)))).data) = none
      rw [hdata]
      exact loads_backtick _
    have h2 : json_loads (clean_json_text (fenceWrap (String.mk (serVal (JVal.obj fs))))) =
        some (JVal.obj fs) := by
      rw [hclean]
      exact json_loads_ser (JVal.obj fs) hs
    refine ⟨?_, ?_, ?_⟩
    · unfold validate_and_clean_json repairResult
      simp only [h0, Bool.false_eq_true, if_false]
      rw [h1, h2]
    · rw [hdata]
      exact fenceBlocks_wrap (serVal (JVal.obj fs))
        (fun c hc => (serVal_quiet (JVal.obj fs) hs c hc).2)
        ⟨'\x7b', serObj fs ++ ['\x7d'], rfl, by decide⟩
    · show (match parseVal (2 * (serVal (JVal.obj fs) ++ ['\n']).length + 2)
            (serVal (JVal.obj fs) ++ ['\n']) with
          | some (v, rest) => if (skipWs rest).isEmpty then some v else none
          | none => none) = some (JVal.obj fs)
      rw [parse_serVal (JVal.obj fs) hs _ ['\n'] (by
        simp only [List.length_append, List.length_cons, List.length_nil]
        omega)]
      rfl
  · intro t v h0 h1 h2 h3
    unfold validate_and_clean_json repairResult
    simp only [h0, Bool.false_eq_true, if_false]
    rw [h1, h2, h3]

/-- Closed instances of the amended C7 claim: a fenced safe object recovered
via normalization, and a value recovered from the fence stage proper when
the first two stages fail. -/
theorem c7_amended_witness :
    validate_and_clean_json (fenceWrap (String.mk (serVal (JVal.obj [("a", JVal.str "x")])))) =
      some (JVal.obj [("a", JVal.str "x")]) ∧
    validate_and_clean_json "see ```json\n[1, 2]\n``` \x7b oops" =
      some (JVal.arr [JVal.num 1, JVal.num 2]) :=
  ⟨(c7_amended_fence_extraction.1 [("a", JVal.str "x")] (by decide)).1,
   c7_amended_fence_extraction.2 "see ```json\n[1, 2]\n``` \x7b oops"
     (JVal.arr [JVal.num 1, JVal.num 2]) rfl rfl rfl rfl⟩
